import Mathlib

/-!
Verification of the harp.gl frustum-intersection subsystem
(`src/@here/harp-mapview/lib/FrustumIntersection.ts`).

The TypeScript code is shallowly embedded below. JavaScript numbers are
modelled as rationals (`ℚ`), with the single `Infinity` sentinel used for
root areas modelled as `⊤ : WithTop ℚ`. External collaborators (tiling
scheme, projection, frustum tests, elevation source, data sources) are
modelled as records of functions, exactly mirroring the interfaces the
code consumes. The development-build `assert` calls of the source are
modelled as an explicit `assertionFailed` outcome, and the unbounded
`while` loop is run on explicit fuel (`outOfFuel` when exhausted). The
traversal additionally records two ghost traces that do not influence any
computed value: the elevation queries it makes and the candidate children
it considers, so that theorems can speak about "every query made during
the call" and "children pruned by the area test".
-/

namespace HarpFrustum

/-- A quadtree tile address (TileKey of harp-geoutils): row, column, level. -/
structure TileKey where
  row : Nat
  column : Nat
  level : Nat
deriving DecidableEq

/-- Geographic coordinates with altitude (GeoCoordinates of harp-geoutils). -/
structure GeoCoordinates where
  latitude : ℚ
  longitude : ℚ
  altitude : ℚ
deriving DecidableEq

/-- A geographic bounding box, held by its south-west and north-east corners. -/
structure GeoBox where
  southWest : GeoCoordinates
  northEast : GeoCoordinates
deriving DecidableEq

/-- A three-dimensional vector (THREE.Vector3) over ℚ. -/
structure Vector3 where
  x : ℚ
  y : ℚ
  z : ℚ
deriving DecidableEq

/-- A 4x4 matrix (THREE.Matrix4) over ℚ; field `mij` is row i, column j. -/
structure Matrix4 where
  m11 : ℚ
  m12 : ℚ
  m13 : ℚ
  m14 : ℚ
  m21 : ℚ
  m22 : ℚ
  m23 : ℚ
  m24 : ℚ
  m31 : ℚ
  m32 : ℚ
  m33 : ℚ
  m34 : ℚ
  m41 : ℚ
  m42 : ℚ
  m43 : ℚ
  m44 : ℚ
deriving DecidableEq

/-- THREE.Vector3.applyMatrix4: multiply by the matrix and divide by the
resulting homogeneous w coordinate (in ℚ a zero w yields 1 / 0 = 0). -/
def applyMatrix4 (m : Matrix4) (v : Vector3) : Vector3 :=
  let w := 1 / (m.m41 * v.x + m.m42 * v.y + m.m43 * v.z + m.m44)
  ⟨(m.m11 * v.x + m.m12 * v.y + m.m13 * v.z + m.m14) * w,
   (m.m21 * v.x + m.m22 * v.y + m.m23 * v.z + m.m24) * w,
   (m.m31 * v.x + m.m32 * v.y + m.m33 * v.z + m.m34) * w⟩

/-- JavaScript Math.abs on rationals, written with an explicit branch so
that it evaluates by kernel reduction. -/
def ratAbs (q : ℚ) : ℚ := if q < 0 then -q else q

/-- JavaScript Math.min on rationals. -/
def ratMin (a b : ℚ) : ℚ := if a ≤ b then a else b

/-- JavaScript Math.max on rationals. -/
def ratMax (a b : ℚ) : ℚ := if a ≤ b then b else a

/-- Matrix product (THREE.Matrix4.multiply): entry (i, j) of `matMul a b`
is the dot product of row i of `a` with column j of `b`. -/
def matMul (a b : Matrix4) : Matrix4 :=
  ⟨a.m11 * b.m11 + a.m12 * b.m21 + a.m13 * b.m31 + a.m14 * b.m41,
   a.m11 * b.m12 + a.m12 * b.m22 + a.m13 * b.m32 + a.m14 * b.m42,
   a.m11 * b.m13 + a.m12 * b.m23 + a.m13 * b.m33 + a.m14 * b.m43,
   a.m11 * b.m14 + a.m12 * b.m24 + a.m13 * b.m34 + a.m14 * b.m44,
   a.m21 * b.m11 + a.m22 * b.m21 + a.m23 * b.m31 + a.m24 * b.m41,
   a.m21 * b.m12 + a.m22 * b.m22 + a.m23 * b.m32 + a.m24 * b.m42,
   a.m21 * b.m13 + a.m22 * b.m23 + a.m23 * b.m33 + a.m24 * b.m43,
   a.m21 * b.m14 + a.m22 * b.m24 + a.m23 * b.m34 + a.m24 * b.m44,
   a.m31 * b.m11 + a.m32 * b.m21 + a.m33 * b.m31 + a.m34 * b.m41,
   a.m31 * b.m12 + a.m32 * b.m22 + a.m33 * b.m32 + a.m34 * b.m42,
   a.m31 * b.m13 + a.m32 * b.m23 + a.m33 * b.m33 + a.m34 * b.m43,
   a.m31 * b.m14 + a.m32 * b.m24 + a.m33 * b.m34 + a.m34 * b.m44,
   a.m41 * b.m11 + a.m42 * b.m21 + a.m43 * b.m31 + a.m44 * b.m41,
   a.m41 * b.m12 + a.m42 * b.m22 + a.m43 * b.m32 + a.m44 * b.m42,
   a.m41 * b.m13 + a.m42 * b.m23 + a.m43 * b.m33 + a.m44 * b.m43,
   a.m41 * b.m14 + a.m42 * b.m24 + a.m43 * b.m34 + a.m44 * b.m44⟩

/-- THREE.Matrix4.makeTranslation. -/
def makeTranslation (x y z : ℚ) : Matrix4 :=
  ⟨1, 0, 0, x,
   0, 1, 0, y,
   0, 0, 1, z,
   0, 0, 0, 1⟩

/-- An axis-aligned bounding box (THREE.Box3). -/
structure Box3 where
  min : Vector3
  max : Vector3
deriving DecidableEq

/-- Modelled from the spec: OrientedBox3 of harp-geoutils (not under src/), a
bounding box with arbitrary rotation, carrying its center position, its
half-extents and its rotation matrix (getCenter returns the position,
getRotationMatrix returns the rotation as a 4x4 matrix). -/
structure OrientedBox3 where
  position : Vector3
  extents : Vector3
  rotationMatrix : Matrix4
deriving DecidableEq

/-- The projection type of harp-geoutils. -/
inductive ProjectionType where
  | Planar
  | Spherical
deriving DecidableEq

/-- A projection (harp-geoutils Projection), consumed by the code through its
type tag, its box projection (writing an axis-aligned box for non-spherical
targets and an oriented box for spherical ones, split here into the two
overloads) and point unprojection. -/
structure Projection where
  type : ProjectionType
  projectBoxAAB : GeoBox → Box3
  projectBoxOBB : GeoBox → OrientedBox3
  unprojectPoint : Vector3 → GeoCoordinates

/-- A tiling scheme (harp-geoutils TilingScheme), consumed through
`getGeoBox` and `getSubTileKeys`. The JavaScript reference equality (===)
used to compare tiling scheme objects is modelled by an identity tag. -/
structure TilingScheme where
  id : Nat
  getGeoBox : TileKey → GeoBox
  getSubTileKeys : TileKey → List TileKey

/-- Modelled from the spec: the CalculationStatus enum of
ElevationRangeSource.ts (not under src/); the spec (§6) lists the precision
statuses final-precise, approximate and pending. -/
inductive CalculationStatus where
  | FinalPrecise
  | Approximate
  | Pending
deriving DecidableEq

/-- Modelled from the spec: the elevation range record returned by
`getElevationRange` — minimum and maximum elevation plus precision status. -/
structure ElevationRange where
  minElevation : ℚ
  maxElevation : ℚ
  calculationStatus : CalculationStatus
deriving DecidableEq

/-- Modelled from the spec: an ElevationRangeSource (not under src/),
consumed through `getTilingScheme` (held here as the `tilingScheme` field)
and `getElevationRange`. -/
structure ElevationRangeSource where
  tilingScheme : TilingScheme
  getElevationRange : TileKey → ElevationRange

/-- A data source, consumed through its subdivision vote
`shouldSubdivide(zoomLevel, tileKey)`. -/
structure DataSource where
  shouldSubdivide : ℚ → TileKey → Bool

/-- TileKeyEntry: a unique tile key together with the screen area it takes
up, its wraparound offset and its elevation bounds. The `Infinity` area
given to root entries is modelled as `⊤`. -/
structure TileKeyEntry where
  tileKey : TileKey
  area : WithTop ℚ
  offset : Int
  minElevation : ℚ
  maxElevation : ℚ
deriving DecidableEq

/-- An injection of the integers into the naturals, used by the composite
key codec to store the signed wraparound offset. -/
def intCode (o : Int) : Nat :=
  if 0 ≤ o then 2 * o.toNat else 2 * (-o - 1).toNat + 1

/-- Modelled from the spec: `TileOffsetUtils.getKeyForTileKeyAndOffset`
(harp-mapview Utils.ts, not under src/) packs a tile key and a wraparound
offset into one integer key. Per the spec (§4.1, Composite Key Codec) the
encoding is injective: two entries with equal tile key and offset encode to
the same key, and two entries differing in either field encode to
different keys. -/
def getKeyForTileKeyAndOffset (tileKey : TileKey) (offset : Int) : Nat :=
  Nat.pair (Nat.pair tileKey.level (Nat.pair tileKey.row tileKey.column)) (intCode offset)

/-- The geo box of a child tile, shifted in longitude by 360 degrees per
wraparound offset (function `getGeoBox` at the top of
FrustumIntersection.ts). -/
def getGeoBox (tilingScheme : TilingScheme) (childTileKey : TileKey) (offset : Int) : GeoBox :=
  let geoBox := tilingScheme.getGeoBox childTileKey
  let longitudeOffset : ℚ := 360 * (offset : ℚ)
  { southWest := { geoBox.southWest with
      longitude := geoBox.southWest.longitude + longitudeOffset }
    northEast := { geoBox.northEast with
      longitude := geoBox.northEast.longitude + longitudeOffset } }

/-- The result map of the traversal (`m_tileKeyEntries`), modelled as an
insertion-ordered association list, like a JavaScript Map. -/
abbrev TileEntryMap := List (Nat × TileKeyEntry)

/-- JavaScript Map.get. -/
def mapGet (m : TileEntryMap) (k : Nat) : Option TileKeyEntry :=
  (m.find? (fun p => p.1 == k)).map (fun p => p.2)

/-- JavaScript Map.set: replace the value at an existing key in place, or
append a fresh key at the end. -/
def mapSet (m : TileEntryMap) (k : Nat) (v : TileKeyEntry) : TileEntryMap :=
  if (m.find? (fun p => p.1 == k)).isSome then
    m.map (fun p => if p.1 == k then (k, v) else p)
  else
    m ++ [(k, v)]

/-- The state of the frustum intersection object at the time `compute` is
called: the camera-derived predicates and matrices plus the configuration
flags and the current root tile keys. -/
structure FrustumIntersection where
  projection : Projection
  extendedFrustumCulling : Bool
  tileWrappingEnabled : Bool
  cullerIntersectsBox : Box3 → Bool
  frustumIntersectsBox : Box3 → Bool
  obbIntersectsFrustum : OrientedBox3 → Bool
  viewProjectionMatrix : Matrix4
  rootTileKeys : List TileKeyEntry

/-- The Box3 branch of `computeSubTileArea`: gate on the cheap pre-culler
(only when extended frustum culling is enabled) and the precise frustum
test, then transform the four ground-plane corners of the box, close the
contour by repeating the first corner, and sum the shoelace terms exactly
as the p/q loop of the source does. -/
def computeSubTileAreaBox3 (fi : FrustumIntersection) (tileBounds : Box3) : ℚ :=
  if (!fi.extendedFrustumCulling || fi.cullerIntersectsBox tileBounds)
      && fi.frustumIntersectsBox tileBounds then
    let c0 := applyMatrix4 fi.viewProjectionMatrix ⟨tileBounds.min.x, tileBounds.min.y, 0⟩
    let c1 := applyMatrix4 fi.viewProjectionMatrix ⟨tileBounds.max.x, tileBounds.min.y, 0⟩
    let c2 := applyMatrix4 fi.viewProjectionMatrix ⟨tileBounds.max.x, tileBounds.max.y, 0⟩
    let c3 := applyMatrix4 fi.viewProjectionMatrix ⟨tileBounds.min.x, tileBounds.max.y, 0⟩
    let contour := [c0, c1, c2, c3, c0]
    let subTileArea :=
      ((contour.getLastD ⟨0, 0, 0⟩ :: contour).zip contour).foldl
        (fun acc pq => acc + (pq.1.x * pq.2.y - pq.2.x * pq.1.y)) 0
    ratAbs (subTileArea * (1 / 2))
  else
    0

/-- The OrientedBox3 branch of `computeSubTileArea`: reject when the box
does not intersect the frustum, otherwise project the eight corners through
the model-view-projection matrix, wrap them in a screen-space axis-aligned
rectangle and return its width times height. -/
def computeSubTileAreaOBB (fi : FrustumIntersection) (tileBounds : OrientedBox3) : ℚ :=
  if !fi.obbIntersectsFrustum tileBounds then
    0
  else
    let center := tileBounds.position
    let extents := tileBounds.extents
    let modelViewProjMatrix :=
      matMul (matMul fi.viewProjectionMatrix (makeTranslation center.x center.y center.z))
        tileBounds.rotationMatrix
    let p0 := applyMatrix4 modelViewProjMatrix ⟨-extents.x, -extents.y, -extents.z⟩
    let p1 := applyMatrix4 modelViewProjMatrix ⟨extents.x, -extents.y, -extents.z⟩
    let p2 := applyMatrix4 modelViewProjMatrix ⟨extents.x, extents.y, -extents.z⟩
    let p3 := applyMatrix4 modelViewProjMatrix ⟨-extents.x, extents.y, -extents.z⟩
    let p4 := applyMatrix4 modelViewProjMatrix ⟨-extents.x, -extents.y, extents.z⟩
    let p5 := applyMatrix4 modelViewProjMatrix ⟨extents.x, -extents.y, extents.z⟩
    let p6 := applyMatrix4 modelViewProjMatrix ⟨extents.x, extents.y, extents.z⟩
    let p7 := applyMatrix4 modelViewProjMatrix ⟨-extents.x, extents.y, extents.z⟩
    let minX := ratMin p0.x (ratMin p1.x (ratMin p2.x (ratMin p3.x
      (ratMin p4.x (ratMin p5.x (ratMin p6.x p7.x))))))
    let maxX := ratMax p0.x (ratMax p1.x (ratMax p2.x (ratMax p3.x
      (ratMax p4.x (ratMax p5.x (ratMax p6.x p7.x))))))
    let minY := ratMin p0.y (ratMin p1.y (ratMin p2.y (ratMin p3.y
      (ratMin p4.y (ratMin p5.y (ratMin p6.y p7.y))))))
    let maxY := ratMax p0.y (ratMax p1.y (ratMax p2.y (ratMax p3.y
      (ratMax p4.y (ratMax p5.y (ratMax p6.y p7.y))))))
    (maxX - minX) * (maxY - minY)

/-- Ghost record of one candidate child examined by the traversal: the
popped parent tile and offset, the child tile, and the screen area the
area estimator returned for it. -/
structure ConsideredChild where
  parent : TileKey
  offset : Int
  child : TileKey
  area : ℚ
deriving DecidableEq

/-- The mutable state threaded through the for-loop over the children of
one popped tile: the result map, the running precision flag, the two ghost
traces, and the children pushed for further traversal. -/
structure ChildrenState where
  tileKeyEntries : TileEntryMap
  calculationFinal : Bool
  queries : List (TileKey × CalculationStatus)
  considered : List ConsideredChild
  pushed : List TileKeyEntry
deriving DecidableEq

/-- The body of the `for (const childTileKey of tilingScheme.getSubTileKeys(tileKey))`
loop of `compute`, one child at a time. Returns `none` when the assertion
that the composite key of the child is not yet in the result map fires.
`ersUsed` is the elevation source when `useElevationRangeSource` held,
otherwise `none`. -/
def processChildren (fi : FrustumIntersection) (tilingScheme : TilingScheme)
    (ersUsed : Option ElevationRangeSource) (parent : TileKey) (offset : Int) :
    List TileKey → ChildrenState → Option ChildrenState
  | [], st => some st
  | childTileKey :: restChildren, st =>
    let tileKeyAndOffset := getKeyForTileKeyAndOffset childTileKey offset
    if (mapGet st.tileKeyEntries tileKeyAndOffset).isSome then
      none
    else
      let geoBox0 := getGeoBox tilingScheme childTileKey offset
      let step : GeoBox × Bool × List (TileKey × CalculationStatus) :=
        match ersUsed with
        | some ers =>
          let range := ers.getElevationRange childTileKey
          ({ southWest := { geoBox0.southWest with altitude := range.minElevation }
             northEast := { geoBox0.northEast with altitude := range.maxElevation } },
           st.calculationFinal
             && decide (range.calculationStatus = CalculationStatus.FinalPrecise),
           st.queries ++ [(childTileKey, range.calculationStatus)])
        | none => (geoBox0, st.calculationFinal, st.queries)
      let geoBox := step.1
      let calculationFinal := step.2.1
      let queries := step.2.2
      let subTileArea :=
        if fi.projection.type = ProjectionType.Spherical then
          computeSubTileAreaOBB fi (fi.projection.projectBoxOBB geoBox)
        else
          computeSubTileAreaBox3 fi (fi.projection.projectBoxAAB geoBox)
      let considered := st.considered ++ [⟨parent, offset, childTileKey, subTileArea⟩]
      if 0 < subTileArea then
        let subTileEntry : TileKeyEntry :=
          ⟨childTileKey, (subTileArea : WithTop ℚ), offset,
            geoBox.southWest.altitude, geoBox.northEast.altitude⟩
        processChildren fi tilingScheme ersUsed parent offset restChildren
          { tileKeyEntries := mapSet st.tileKeyEntries tileKeyAndOffset subTileEntry
            calculationFinal := calculationFinal
            queries := queries
            considered := considered
            pushed := st.pushed ++ [subTileEntry] }
      else
        processChildren fi tilingScheme ersUsed parent offset restChildren
          { st with
            calculationFinal := calculationFinal
            queries := queries
            considered := considered }

/-- The value `compute` returns, extended with the two ghost traces. -/
structure ComputeResult where
  tileKeyEntries : TileEntryMap
  calculationFinal : Bool
  queries : List (TileKey × CalculationStatus)
  considered : List ConsideredChild
deriving DecidableEq

/-- Outcome of a call to `compute`: a result, a development-build assertion
failure, or fuel exhaustion of the embedded while loop. -/
inductive ComputeOutcome where
  | ok (result : ComputeResult)
  | assertionFailed
  | outOfFuel
deriving DecidableEq

/-- The `while (workList.length > 0)` loop of `compute`. The JavaScript
array pops from its tail, so the work list is modelled with its head as the
top of the stack; the children pushed in order by the inner for loop are
therefore prepended in reverse. -/
def computeLoop (fi : FrustumIntersection) (tilingScheme : TilingScheme) (maxTileLevel : Nat)
    (ersUsed : Option ElevationRangeSource) (zoomLevels : List ℚ)
    (dataSources : List DataSource) :
    Nat → TileEntryMap → Bool → List (TileKey × CalculationStatus) → List ConsideredChild →
    List TileKeyEntry → ComputeOutcome
  | 0, m, cf, qs, cons, wl =>
    match wl with
    | [] => .ok ⟨m, cf, qs, cons⟩
    | _ :: _ => .outOfFuel
  | fuel + 1, m, cf, qs, cons, wl =>
    match wl with
    | [] => .ok ⟨m, cf, qs, cons⟩
    | tileEntry :: workRest =>
    let tileKey := tileEntry.tileKey
    if maxTileLevel < tileKey.level then
      computeLoop fi tilingScheme maxTileLevel ersUsed zoomLevels dataSources
        fuel m cf qs cons workRest
    else
      let proceed :=
        (dataSources.zip zoomLevels).any (fun p => p.1.shouldSubdivide p.2 tileKey)
      if proceed = false then
        computeLoop fi tilingScheme maxTileLevel ersUsed zoomLevels dataSources
          fuel m cf qs cons workRest
      else
        match mapGet m (getKeyForTileKeyAndOffset tileKey tileEntry.offset) with
        | none => .assertionFailed
        | some cachedTileEntry =>
          if 0 < cachedTileEntry.area then
            match processChildren fi tilingScheme ersUsed tileKey tileEntry.offset
                (tilingScheme.getSubTileKeys tileKey) ⟨m, cf, qs, cons, []⟩ with
            | none => .assertionFailed
            | some st =>
              computeLoop fi tilingScheme maxTileLevel ersUsed zoomLevels dataSources
                fuel st.tileKeyEntries st.calculationFinal st.queries st.considered
                (st.pushed.reverse ++ workRest)
          else
            .assertionFailed

/-- `FrustumIntersection.compute`: seed the cleared result map with the
root entries (area Infinity), decide whether the elevation range source is
usable (present and over the same tiling scheme), and run the traversal
from the root entries. -/
def compute (fi : FrustumIntersection) (tilingScheme : TilingScheme) (maxTileLevel : Nat)
    (elevationRangeSource : Option ElevationRangeSource) (zoomLevels : List ℚ)
    (dataSources : List DataSource) (fuel : Nat) : ComputeOutcome :=
  let initial : TileEntryMap :=
    fi.rootTileKeys.foldl
      (fun m item =>
        mapSet m (getKeyForTileKeyAndOffset item.tileKey item.offset)
          ⟨item.tileKey, ⊤, item.offset, item.minElevation, item.maxElevation⟩)
      []
  let useElevationRangeSource :=
    match elevationRangeSource with
    | some ers => ers.tilingScheme.id == tilingScheme.id
    | none => false
  computeLoop fi tilingScheme maxTileLevel
    (if useElevationRangeSource then elevationRangeSource else none)
    zoomLevels dataSources fuel initial true [] [] fi.rootTileKeys.reverse

/-- The camera fields consumed by `computeRequiredInitialRootTileKeys`:
vertical field of view in degrees, aspect ratio, and position. -/
structure CameraState where
  fov : ℚ
  aspect : ℚ
  position : Vector3
deriving DecidableEq

/-- The transcendental real operations used by the root key selector,
supplied as parameters of the embedding (JavaScript Math.tan,
THREE.Math.degToRad and Math.SQRT2 have no exact rational counterpart). -/
structure MathOps where
  tan : ℚ → ℚ
  degToRad : ℚ → ℚ
  sqrt2 : ℚ

/-- The environment of `computeRequiredInitialRootTileKeys`: projection,
the tile wrapping flag of the constructor, camera state, the camera pitch
(the result of `MapViewUtils.extractAttitude`, computed outside this file),
and the mathematical operations. -/
structure RootKeyEnv where
  projection : Projection
  tileWrappingEnabled : Bool
  camera : CameraState
  cameraPitch : ℚ
  ops : MathOps

/-- The start offset of the wraparound branch:
`Math.round(worldGeoPoint.longitude / 360)` for the unprojected camera
position (JavaScript Math.round rounds half toward positive infinity,
exactly as Mathlib round does). -/
def selectorStartOffset (env : RootKeyEnv) (worldCenter : Vector3) : ℤ :=
  round ((env.projection.unprojectPoint worldCenter).longitude / 360)

/-- The offset range of the wraparound branch, exactly as computed in the
source: clamp into [0, 7] the rounded-up wrap count derived from the
horizontal ground reach of the tilted frustum. -/
def selectorOffsetRange (env : RootKeyEnv) (worldCenter : Vector3) : ℤ :=
  let worldGeoPoint := env.projection.unprojectPoint worldCenter
  let cameraPitch := env.cameraPitch
  let aspect :=
    if 1 < env.camera.aspect then env.camera.aspect else 1 / env.camera.aspect
  let totalAngleRad := env.ops.degToRad ((env.camera.fov * aspect) / 2) + cameraPitch
  let worldLengthHorizontalFull := env.ops.tan totalAngleRad * env.camera.position.z
  let worldLengthHorizontalSmallerHalf := env.ops.tan cameraPitch * env.camera.position.z
  let worldLengthHorizontal := worldLengthHorizontalFull - worldLengthHorizontalSmallerHalf
  let worldLeftPoint : Vector3 :=
    ⟨worldCenter.x - worldLengthHorizontal, worldCenter.y, worldCenter.z⟩
  let worldLeftGeoPoint := env.projection.unprojectPoint worldLeftPoint
  max 0 (min 7
    ⌈ratAbs ((worldGeoPoint.longitude - worldLeftGeoPoint.longitude) / 360) * env.ops.sqrt2⌉)

/-- `FrustumIntersection.computeRequiredInitialRootTileKeys`: a single
level-0 root entry with offset 0 unless the projection is planar and tile
wrapping is enabled, in which case one root entry per integer offset in
[startOffset - offsetRange, startOffset + offsetRange]. -/
def computeRequiredInitialRootTileKeys (env : RootKeyEnv) (worldCenter : Vector3) :
    List TileKeyEntry :=
  let rootTileKey : TileKey := ⟨0, 0, 0⟩
  let tileWrappingEnabled := env.projection.type = ProjectionType.Planar
  if ¬tileWrappingEnabled ∨ ¬env.tileWrappingEnabled then
    [⟨rootTileKey, 0, 0, 0, 0⟩]
  else
    let startOffset := selectorStartOffset env worldCenter
    let offsetRange := selectorOffsetRange env worldCenter
    (List.range (2 * offsetRange + 1).toNat).map
      (fun (i : Nat) => ⟨rootTileKey, 0, startOffset - offsetRange + (i : ℤ), 0, 0⟩)

/-! ### Definitions written from the words of the spec

The following definitions restate, in the exact words of the spec, the
quantities the code is claimed to compute; the claims compare them with
the definitions above, which were transcribed from the source. -/

/-- Spec wording (C5): the aspect ratio clamped to be at least 1, the
reciprocal taken when the raw aspect is below 1. -/
def specAspectClamped (env : RootKeyEnv) : ℚ :=
  if env.camera.aspect < 1 then 1 / env.camera.aspect else env.camera.aspect

/-- Spec wording (C5): the half horizontal field-of-view angle is half the
vertical field of view scaled by the clamped aspect ratio, converted to
radians. -/
def specHalfFovHorizontal (env : RootKeyEnv) : ℚ :=
  env.ops.degToRad (env.camera.fov / 2 * specAspectClamped env)

/-- Spec wording (C5): the horizontal ground reach is
tan(halfFovHorizontal + pitch) * cameraHeight - tan(pitch) * cameraHeight. -/
def specGroundReach (env : RootKeyEnv) : ℚ :=
  env.ops.tan (specHalfFovHorizontal env + env.cameraPitch) * env.camera.position.z
    - env.ops.tan env.cameraPitch * env.camera.position.z

/-- Spec wording (C5): unproject the point displaced by the ground reach
to a second longitude, take the ceiling of (|longitude delta| / 360) times
the square root of two, and clamp to [0, 7]. -/
def specOffsetRange (env : RootKeyEnv) (worldCenter : Vector3) : ℤ :=
  let firstLongitude := (env.projection.unprojectPoint worldCenter).longitude
  let displaced : Vector3 :=
    ⟨worldCenter.x - specGroundReach env, worldCenter.y, worldCenter.z⟩
  let secondLongitude := (env.projection.unprojectPoint displaced).longitude
  max 0 (min 7 ⌈|firstLongitude - secondLongitude| / 360 * env.ops.sqrt2⌉)

/-- Spec wording (C7): the signed shoelace sum over the closed 4-vertex
contour a, b, c, d. -/
def specShoelaceClosed (a b c d : Vector3) : ℚ :=
  (a.x * b.y - b.x * a.y) + (b.x * c.y - c.x * b.y)
    + (c.x * d.y - d.x * c.y) + (d.x * a.y - a.x * d.y)

/-- Spec wording (C7): the area of an axis-aligned box is 0 whenever the
cheap pre-culler (consulted only when extended culling is enabled) or the
precise frustum test rejects it; otherwise it is half the absolute value
of the signed shoelace sum of the four transformed ground-plane corners. -/
def specAreaAAB (fi : FrustumIntersection) (tileBounds : Box3) : ℚ :=
  if (fi.extendedFrustumCulling && !fi.cullerIntersectsBox tileBounds)
      || !fi.frustumIntersectsBox tileBounds then
    0
  else
    let a := applyMatrix4 fi.viewProjectionMatrix ⟨tileBounds.min.x, tileBounds.min.y, 0⟩
    let b := applyMatrix4 fi.viewProjectionMatrix ⟨tileBounds.max.x, tileBounds.min.y, 0⟩
    let c := applyMatrix4 fi.viewProjectionMatrix ⟨tileBounds.max.x, tileBounds.max.y, 0⟩
    let d := applyMatrix4 fi.viewProjectionMatrix ⟨tileBounds.min.x, tileBounds.max.y, 0⟩
    |specShoelaceClosed a b c d| / 2

/-! ### Concrete instances used to witness the theorems -/

/-- The identity matrix. -/
def matIdentity : Matrix4 := makeTranslation 0 0 0

/-- A standard quadtree subdivision: each tile splits into four children at
the next level. -/
def quadSubTileKeys (t : TileKey) : List TileKey :=
  [⟨2 * t.row, 2 * t.column, t.level + 1⟩,
   ⟨2 * t.row, 2 * t.column + 1, t.level + 1⟩,
   ⟨2 * t.row + 1, 2 * t.column, t.level + 1⟩,
   ⟨2 * t.row + 1, 2 * t.column + 1, t.level + 1⟩]

/-- A geo box per tile with zero altitudes, encoding the row as latitude
and the column as longitude. -/
def exGeoBox (t : TileKey) : GeoBox :=
  { southWest := ⟨(t.row : ℚ), (t.column : ℚ), 0⟩
    northEast := ⟨(t.row : ℚ) + 1, (t.column : ℚ) + 1, 0⟩ }

/-- A concrete quadtree tiling scheme. -/
def exTilingScheme : TilingScheme := ⟨0, exGeoBox, quadSubTileKeys⟩

/-- A concrete planar projection mapping longitude to x and latitude to y. -/
def exProjection : Projection :=
  { type := ProjectionType.Planar
    projectBoxAAB := fun gb =>
      ⟨⟨gb.southWest.longitude, gb.southWest.latitude, 0⟩,
       ⟨gb.northEast.longitude, gb.northEast.latitude, 0⟩⟩
    projectBoxOBB := fun _ => ⟨⟨0, 0, 0⟩, ⟨0, 0, 0⟩, matIdentity⟩
    unprojectPoint := fun v => ⟨v.y, v.x, v.z⟩ }

/-- A frustum intersection state whose frustum accepts every box, with a
single level-0 root entry. -/
def exFrustumAll : FrustumIntersection :=
  { projection := exProjection
    extendedFrustumCulling := false
    tileWrappingEnabled := false
    cullerIntersectsBox := fun _ => true
    frustumIntersectsBox := fun _ => true
    obbIntersectsFrustum := fun _ => false
    viewProjectionMatrix := matIdentity
    rootTileKeys := [⟨⟨0, 0, 0⟩, 0, 0, 0, 0⟩] }

/-- Like `exFrustumAll`, but the frustum rejects exactly the box whose
minimum corner is (1, 1) — the projected box of tile (row 1, column 1,
level 1). -/
def exFrustumReject : FrustumIntersection :=
  { exFrustumAll with
    frustumIntersectsBox := fun b => !(b.min.x == 1 && b.min.y == 1) }

/-- A data source that always votes to subdivide. -/
def exDataSourceYes : DataSource := ⟨fun _ _ => true⟩

/-- A data source that never votes to subdivide. -/
def exDataSourceNo : DataSource := ⟨fun _ _ => false⟩

/-- An elevation range source over `exTilingScheme` reporting an
approximate range for tile (row 1, column 1, level 1) and a final precise
range everywhere else. -/
def exElevationSource : ElevationRangeSource :=
  { tilingScheme := exTilingScheme
    getElevationRange := fun t =>
      if t = ⟨1, 1, 1⟩ then ⟨0, 0, CalculationStatus.Approximate⟩
      else ⟨0, 0, CalculationStatus.FinalPrecise⟩ }

/-- An elevation range source over a tiling scheme with a different
identity than `exTilingScheme`. -/
def exElevationSourceMismatched : ElevationRangeSource :=
  { tilingScheme := { exTilingScheme with id := 1 }
    getElevationRange := fun _ => ⟨5, 9, CalculationStatus.Approximate⟩ }

/-! ### Observations on compute outcomes (used to state closed theorems) -/

/-- Whether the outcome is a normal result. -/
def isOk : ComputeOutcome → Bool
  | .ok _ => true
  | _ => false

/-- The number of entries of the returned result map (0 for failures). -/
def okMapLength : ComputeOutcome → Nat
  | .ok res => res.tileKeyEntries.length
  | _ => 0

/-- The returned precision flag (true for failures). -/
def okCalculationFinal : ComputeOutcome → Bool
  | .ok res => res.calculationFinal
  | _ => true

/-- Whether every entry of the returned result map is for a tile whose
elevation range the given source reports as final precise. -/
def okEntriesFinalPrecise (ers : ElevationRangeSource) : ComputeOutcome → Bool
  | .ok res =>
    res.tileKeyEntries.all
      (fun p => (ers.getElevationRange p.2.tileKey).calculationStatus
        == CalculationStatus.FinalPrecise)
  | _ => false

/-- The entry `compute` seeds the result map with for a root item: the
same tile key, offset and elevations, with area Infinity. -/
def rootEntry (r : TileKeyEntry) : TileKeyEntry :=
  ⟨r.tileKey, ⊤, r.offset, r.minElevation, r.maxElevation⟩

/-- Concrete rational stand-ins for the transcendental operations. -/
def exMathOps : MathOps :=
  { tan := fun x => x
    degToRad := fun x => x / 60
    sqrt2 := 3 / 2 }

/-- A planar wraparound-enabled root selector environment. -/
def exEnvPlanar : RootKeyEnv :=
  { projection := exProjection
    tileWrappingEnabled := true
    camera := { fov := 60, aspect := 2, position := ⟨0, 0, 1⟩ }
    cameraPitch := 0
    ops := exMathOps }

/-- A spherical root selector environment. -/
def exEnvSpherical : RootKeyEnv :=
  { exEnvPlanar with projection := { exProjection with type := ProjectionType.Spherical } }

/-- A frustum intersection state over a spherical projection whose root
entries are exactly those the root selector produces for
`exEnvSpherical`. -/
def exSphFrustum : FrustumIntersection :=
  { exFrustumAll with
    projection := exEnvSpherical.projection
    rootTileKeys := computeRequiredInitialRootTileKeys exEnvSpherical ⟨0, 0, 0⟩ }

/-- The Boolean test a query must pass for the flag to stay true. -/
def queryFinal (q : TileKey × CalculationStatus) : Bool :=
  decide (q.2 = CalculationStatus.FinalPrecise)


/-- The composite key of an entry. -/
def entryKey (e : TileKeyEntry) : Nat := getKeyForTileKeyAndOffset e.tileKey e.offset

/-- The tile-and-offset pair of an entry. -/
def entryPair (e : TileKeyEntry) : TileKey × Int := (e.tileKey, e.offset)

/-- The invariant the while loop of `compute` maintains, over the tiling
scheme, the maximum level, the seeding root items, the ghost list `P` of
already subdivided (tile, offset) pairs, the result map, the work list and
the ghost considered trace. -/
structure LoopInv (ts : TilingScheme) (maxL : Nat) (roots : List TileKeyEntry)
    (P : List (TileKey × Int)) (m : TileEntryMap) (wl : List TileKeyEntry)
    (cons : List ConsideredChild) : Prop where
  keys_nodup : (m.map Prod.fst).Nodup
  keyed : ∀ p ∈ m, p.1 = getKeyForTileKeyAndOffset p.2.tileKey p.2.offset
  src : ∀ p ∈ m,
    (∃ r ∈ roots, p.2 = rootEntry r)
    ∨ ∃ q ∈ P, p.2.tileKey ∈ ts.getSubTileKeys q.1 ∧ p.2.offset = q.2 ∧ 0 < p.2.area
  popped_inMap : ∀ q ∈ P, (mapGet m (getKeyForTileKeyAndOffset q.1 q.2)).isSome
  popped_level : ∀ q ∈ P, q.1.level ≤ maxL
  roots_inMap : ∀ r ∈ roots, mapGet m (entryKey r) = some (rootEntry r)
  wl_inMap : ∀ e ∈ wl, ∃ en, mapGet m (entryKey e) = some en ∧ 0 < en.area
  wl_notPopped : ∀ e ∈ wl, entryPair e ∉ P
  wl_nodup : (wl.map entryPair).Nodup
  cons_parents : ∀ c ∈ cons, (c.parent, c.offset) ∈ P
  cons_child : ∀ c ∈ cons, c.child ∈ ts.getSubTileKeys c.parent
  pruned_absent : ∀ c ∈ cons, ¬0 < c.area →
    mapGet m (getKeyForTileKeyAndOffset c.child c.offset) = none

/-- The invariant of the for loop over the children of one popped entry
(`parent`, `off`): `m0` is the result map at the time the entry was
popped, `P` the pairs subdivided strictly before it, `cs` the children not
yet examined. -/
structure InnerInv (ts : TilingScheme) (roots : List TileKeyEntry)
    (P : List (TileKey × Int)) (parent : TileKey) (off : Int) (m0 : TileEntryMap)
    (cs : List TileKey) (st : ChildrenState) : Prop where
  parent_not_popped : (parent, off) ∉ P
  keys_nodup : (st.tileKeyEntries.map Prod.fst).Nodup
  keyed : ∀ p ∈ st.tileKeyEntries, p.1 = getKeyForTileKeyAndOffset p.2.tileKey p.2.offset
  src : ∀ p ∈ st.tileKeyEntries,
    (∃ r ∈ roots, p.2 = rootEntry r)
    ∨ ∃ q ∈ P ++ [(parent, off)],
        p.2.tileKey ∈ ts.getSubTileKeys q.1 ∧ p.2.offset = q.2 ∧ 0 < p.2.area
  popped_inMap : ∀ q ∈ P ++ [(parent, off)],
    (mapGet st.tileKeyEntries (getKeyForTileKeyAndOffset q.1 q.2)).isSome
  roots_inMap : ∀ r ∈ roots, mapGet st.tileKeyEntries (entryKey r) = some (rootEntry r)
  cons_parents : ∀ c ∈ st.considered, (c.parent, c.offset) ∈ P ++ [(parent, off)]
  cons_child : ∀ c ∈ st.considered, c.child ∈ ts.getSubTileKeys c.parent
  pruned_absent : ∀ c ∈ st.considered, ¬0 < c.area →
    mapGet st.tileKeyEntries (getKeyForTileKeyAndOffset c.child c.offset) = none
  cs_sub : ∀ c ∈ cs, c ∈ ts.getSubTileKeys parent
  cs_nodup : cs.Nodup
  cs_fresh : ∀ c ∈ cs, mapGet st.tileKeyEntries (getKeyForTileKeyAndOffset c off) = none
  cs_not_considered : ∀ c ∈ cs, ∀ d ∈ st.considered,
    d.parent = parent → d.offset = off → d.child ≠ c
  pushed_sub : ∀ e ∈ st.pushed,
    e.tileKey ∈ ts.getSubTileKeys parent ∧ e.offset = off ∧ 0 < e.area
  pushed_inMap : ∀ e ∈ st.pushed, mapGet st.tileKeyEntries (entryKey e) = some e
  pushed_nodup : (st.pushed.map (fun e => e.tileKey)).Nodup
  pushed_fresh : ∀ e ∈ st.pushed, mapGet m0 (entryKey e) = none
  pushed_not_cs : ∀ e ∈ st.pushed, e.tileKey ∉ cs
  extends0 : ∀ k v, mapGet m0 k = some v → mapGet st.tileKeyEntries k = some v

/-! ### Properties of the composite key codec and the map operations -/

theorem intCode_inj {a b : Int} (h : intCode a = intCode b) : a = b := by
  unfold intCode at h
  split_ifs at h <;> omega

theorem getKeyForTileKeyAndOffset_inj {tk1 tk2 : TileKey} {o1 o2 : Int}
    (h : getKeyForTileKeyAndOffset tk1 o1 = getKeyForTileKeyAndOffset tk2 o2) :
    tk1 = tk2 ∧ o1 = o2 := by
  unfold getKeyForTileKeyAndOffset at h
  rw [Nat.pair_eq_pair] at h
  obtain ⟨h1, h2⟩ := h
  rw [Nat.pair_eq_pair] at h1
  obtain ⟨hlevel, h3⟩ := h1
  rw [Nat.pair_eq_pair] at h3
  refine ⟨?_, intCode_inj h2⟩
  cases tk1
  cases tk2
  simp only [TileKey.mk.injEq]
  exact ⟨h3.1, h3.2, hlevel⟩

theorem ratAbs_eq_abs (q : ℚ) : ratAbs q = |q| := by
  unfold ratAbs
  rcases lt_or_le q 0 with h | h
  · rw [if_pos h, abs_of_neg h]
  · rw [if_neg (not_lt.mpr h), abs_of_nonneg h]

theorem mapGet_cons (p : Nat × TileKeyEntry) (m : TileEntryMap) (k : Nat) :
    mapGet (p :: m) k = if p.1 = k then some p.2 else mapGet m k := by
  unfold mapGet
  rcases h : (p.1 == k) with _ | _
  · rw [List.find?_cons_of_neg _ (by simp [h]), if_neg (by simpa using h)]
  · rw [List.find?_cons_of_pos _ (by simp [h]), if_pos (by simpa using h)]
    simp

theorem mapGet_append_of_none {m1 : TileEntryMap} (m2 : TileEntryMap) (k : Nat)
    (h : mapGet m1 k = none) : mapGet (m1 ++ m2) k = mapGet m2 k := by
  induction m1 with
  | nil => simp
  | cons p m1 ih =>
    rw [mapGet_cons] at h
    rw [List.cons_append, mapGet_cons]
    split at h
    · exact absurd h (by simp)
    · rw [if_neg (by assumption)]
      exact ih h

theorem mapGet_append_of_some {m1 : TileEntryMap} (m2 : TileEntryMap) {k : Nat}
    {v : TileKeyEntry} (h : mapGet m1 k = some v) : mapGet (m1 ++ m2) k = some v := by
  induction m1 with
  | nil => simp [mapGet] at h
  | cons p m1 ih =>
    rw [mapGet_cons] at h
    rw [List.cons_append, mapGet_cons]
    split at h
    · rw [if_pos (by assumption)]
      exact h
    · rw [if_neg (by assumption)]
      exact ih h

theorem mapGet_mono {m1 : TileEntryMap} (m2 : TileEntryMap) {k : Nat} {v : TileKeyEntry}
    (h : mapGet m1 k = some v) : mapGet (m1 ++ m2) k = some v :=
  mapGet_append_of_some m2 h

theorem mem_of_mapGet_eq_some {m : TileEntryMap} {k : Nat} {v : TileKeyEntry}
    (h : mapGet m k = some v) : (k, v) ∈ m := by
  induction m with
  | nil => simp [mapGet] at h
  | cons p m ih =>
    rw [mapGet_cons] at h
    split at h
    · have hv : p.2 = v := by simpa using h
      have hp : p = (k, v) := by
        rcases p with ⟨a, b⟩
        simp_all
      rw [← hp]
      exact List.mem_cons_self p m
    · exact List.mem_cons_of_mem p (ih h)

theorem mapGet_isSome_of_mem {m : TileEntryMap} {k : Nat} {v : TileKeyEntry}
    (h : (k, v) ∈ m) : (mapGet m k).isSome := by
  induction m with
  | nil => simp at h
  | cons p m ih =>
    rw [mapGet_cons]
    rcases List.mem_cons.mp h with rfl | h2
    · simp
    · split
      · simp
      · exact ih h2

theorem mapGet_eq_none_iff {m : TileEntryMap} {k : Nat} :
    mapGet m k = none ↔ k ∉ m.map Prod.fst := by
  induction m with
  | nil => simp [mapGet]
  | cons p m ih =>
    rw [mapGet_cons]
    constructor
    · intro h
      split at h
      · exact absurd h (by simp)
      · simp only [List.map_cons, List.mem_cons]
        rintro (rfl | hk)
        · simp_all
        · exact (ih.mp h) hk
    · intro h
      simp only [List.map_cons, List.mem_cons, not_or] at h
      rw [if_neg (fun hh => h.1 hh.symm), ih]
      exact h.2

theorem mapGet_of_mem_nodup {m : TileEntryMap} {k : Nat} {v : TileKeyEntry}
    (hm : (k, v) ∈ m) (hnd : (m.map Prod.fst).Nodup) : mapGet m k = some v := by
  induction m with
  | nil => simp at hm
  | cons p m ih =>
    rw [mapGet_cons]
    rcases List.mem_cons.mp hm with rfl | h2
    · simp
    · have hne : p.1 ≠ k := by
        intro he
        have : k ∈ m.map Prod.fst := List.mem_map.mpr ⟨(k, v), h2, rfl⟩
        rw [List.map_cons, List.nodup_cons, he] at hnd
        exact hnd.1 this
      rw [if_neg hne]
      exact ih h2 (by rw [List.map_cons, List.nodup_cons] at hnd; exact hnd.2)

theorem mapSet_of_none {m : TileEntryMap} {k : Nat} (v : TileKeyEntry)
    (h : mapGet m k = none) : mapSet m k v = m ++ [(k, v)] := by
  unfold mapSet
  rw [if_neg]
  unfold mapGet at h
  rcases hf : m.find? (fun p => p.1 == k) with _ | p
  · simp [hf]
  · rw [hf] at h
    simp at h

theorem mapSet_mem {m : TileEntryMap} {k : Nat} {v : TileKeyEntry} {p : Nat × TileKeyEntry}
    (h : p ∈ mapSet m k v) : p = (k, v) ∨ p ∈ m := by
  unfold mapSet at h
  split at h
  · rcases List.mem_map.mp h with ⟨a, ha, hpa⟩
    by_cases hak : (a.1 == k) = true
    · left
      rw [if_pos hak] at hpa
      exact hpa.symm
    · right
      rw [if_neg hak] at hpa
      exact hpa ▸ ha
  · rcases List.mem_append.mp h with h2 | h2
    · exact Or.inr h2
    · exact Or.inl (by simpa using h2)

/-! ### Claim C4 (counterexample) and claim C9 -/

/-- C4 counterexample: with a single non-wrapping projection, one data
source that always votes to subdivide and maxTileLevel = 0, `compute` does
NOT return a single-entry map: the level-0 root is allowed to subdivide
(only tiles with level strictly greater than maxTileLevel are discarded),
so its four visible level-1 children are added too, giving five entries. -/
theorem c4_counterexample :
    isOk (compute exFrustumAll exTilingScheme 0 none [0] [exDataSourceYes] 10) = true
    ∧ okMapLength (compute exFrustumAll exTilingScheme 0 none [0] [exDataSourceYes] 10) ≠ 1 := by
  refine ⟨by with_unfolding_all decide, ?_⟩
  have h : okMapLength (compute exFrustumAll exTilingScheme 0 none [0] [exDataSourceYes] 10)
      = 5 := by with_unfolding_all decide
  omega

/-- C9: there is an input on which `compute` reports a non-final
calculation even though every entry of the returned map is for a tile
whose elevation range is final precise: the elevation source is queried
for every candidate child before the area test, so the one approximate
tile — pruned by the frustum with area 0 and hence absent from the map —
still forces the flag to false. -/
theorem c9_nonfinal_from_pruned_child :
    isOk (compute exFrustumReject exTilingScheme 0 (some exElevationSource) [0]
        [exDataSourceYes] 10) = true
    ∧ okCalculationFinal (compute exFrustumReject exTilingScheme 0 (some exElevationSource) [0]
        [exDataSourceYes] 10) = false
    ∧ okEntriesFinalPrecise exElevationSource
        (compute exFrustumReject exTilingScheme 0 (some exElevationSource) [0]
          [exDataSourceYes] 10) = true := by
  refine ⟨by with_unfolding_all decide, by with_unfolding_all decide,
    by with_unfolding_all decide⟩

/-! ### Claim C7: the area estimator for axis-aligned boxes -/

theorem shoelace_fold_eq (c0 c1 c2 c3 : Vector3) :
    ((([c0, c1, c2, c3, c0] : List Vector3).getLastD ⟨0, 0, 0⟩ :: [c0, c1, c2, c3, c0]).zip
        [c0, c1, c2, c3, c0]).foldl
      (fun acc pq => acc + (pq.1.x * pq.2.y - pq.2.x * pq.1.y)) 0
      = specShoelaceClosed c0 c1 c2 c3 := by
  simp only [List.getLastD_cons, List.getLastD_nil, List.zip_cons_cons,
    List.zip_nil_right, List.foldl_cons, List.foldl_nil, specShoelaceClosed]
  ring

/-- C7: for an axis-aligned bounding box the area estimator returns 0
whenever the cheap pre-culler (consulted only when extended frustum
culling is enabled) or the precise frustum test rejects the box, and
otherwise returns half the absolute value of the signed shoelace sum over
the closed contour of the four transformed ground-plane corners. -/
theorem c7_area_estimator_aab (fi : FrustumIntersection) (tileBounds : Box3) :
    computeSubTileAreaBox3 fi tileBounds = specAreaAAB fi tileBounds := by
  unfold computeSubTileAreaBox3 specAreaAAB
  cases he : fi.extendedFrustumCulling <;>
    cases hc : fi.cullerIntersectsBox tileBounds <;>
      cases hf : fi.frustumIntersectsBox tileBounds <;>
        simp only [he, hc, hf, Bool.not_true, Bool.not_false, Bool.false_and, Bool.true_and,
          Bool.false_or, Bool.true_or, Bool.or_false, Bool.or_true, Bool.and_true,
          Bool.and_false, Bool.and_self, if_true, if_false, ite_true, ite_false,
          Bool.false_eq_true, Bool.true_eq_false] <;>
        rw [ratAbs_eq_abs, abs_mul, shoelace_fold_eq,
          show |(1 / 2 : ℚ)| = 1 / 2 from by norm_num] <;>
        ring

/-! ### Claim C5: the wraparound offset range formula -/

/-- C5: the offset range computed in the wraparound branch of the root key
selector equals the formula stated by the spec: the ceiling of
(|longitude delta| / 360) * sqrt 2 clamped to [0, 7], where the second
longitude comes from unprojecting the point displaced by the horizontal
ground reach tan(halfFovHorizontal + pitch) * height - tan(pitch) * height,
with the half horizontal fov being half the vertical fov scaled by the
aspect ratio clamped to be at least 1. -/
theorem c5_offset_range_formula (env : RootKeyEnv) (worldCenter : Vector3) :
    selectorOffsetRange env worldCenter = specOffsetRange env worldCenter := by
  have haspect : (if 1 < env.camera.aspect then env.camera.aspect else 1 / env.camera.aspect)
      = specAspectClamped env := by
    unfold specAspectClamped
    rcases lt_trichotomy env.camera.aspect 1 with h | h | h
    · rw [if_neg (by linarith), if_pos h]
    · rw [if_neg (by linarith), if_neg (by linarith), h]
      norm_num
    · rw [if_pos h, if_neg (by linarith)]
  simp only [selectorOffsetRange, specOffsetRange, specGroundReach, specHalfFovHorizontal,
    ratAbs_eq_abs, haspect]
  rw [abs_div]
  norm_num
  ring_nf

/-! ### Claim C3: the root key selector -/

/-- C3: for a non-planar projection or with tile wrapping disabled the
root key selector produces exactly one level-0 root entry with offset 0,
for every camera pose; otherwise it produces 2 * offsetRange + 1 root
entries, one per consecutive integer offset in
[startOffset - offsetRange, startOffset + offsetRange], where startOffset
is round(camera longitude / 360) and offsetRange is clamped to [0, 7]. -/
theorem c3_root_selector (env : RootKeyEnv) (worldCenter : Vector3) :
    (env.projection.type ≠ ProjectionType.Planar ∨ env.tileWrappingEnabled = false →
      computeRequiredInitialRootTileKeys env worldCenter = [⟨⟨0, 0, 0⟩, 0, 0, 0, 0⟩])
    ∧ (env.projection.type = ProjectionType.Planar → env.tileWrappingEnabled = true →
      0 ≤ selectorOffsetRange env worldCenter
      ∧ selectorOffsetRange env worldCenter ≤ 7
      ∧ selectorStartOffset env worldCenter
          = round ((env.projection.unprojectPoint worldCenter).longitude / 360)
      ∧ (computeRequiredInitialRootTileKeys env worldCenter).length
          = 2 * (selectorOffsetRange env worldCenter).toNat + 1
      ∧ (computeRequiredInitialRootTileKeys env worldCenter).map (fun e => e.offset)
          = (List.range (2 * (selectorOffsetRange env worldCenter).toNat + 1)).map
              (fun (i : Nat) => selectorStartOffset env worldCenter
                - selectorOffsetRange env worldCenter + (i : ℤ))
      ∧ ∀ e ∈ computeRequiredInitialRootTileKeys env worldCenter,
          e.tileKey = ⟨0, 0, 0⟩ ∧ e.area = 0 ∧ e.minElevation = 0 ∧ e.maxElevation = 0) := by
  constructor
  · intro h
    simp only [computeRequiredInitialRootTileKeys]
    rw [if_pos]
    rcases h with h | h
    · exact Or.inl h
    · exact Or.inr (by simp [h])
  · intro hp hw
    have hcond : ¬(¬(env.projection.type = ProjectionType.Planar)
        ∨ ¬(env.tileWrappingEnabled = true)) := by
      simp [hp, hw]
    have h0 : 0 ≤ selectorOffsetRange env worldCenter := by
      unfold selectorOffsetRange
      exact le_max_left _ _
    have h7 : selectorOffsetRange env worldCenter ≤ 7 := by
      unfold selectorOffsetRange
      exact max_le (by norm_num) (min_le_left _ _)
    have hn : (2 * selectorOffsetRange env worldCenter + 1).toNat
        = 2 * (selectorOffsetRange env worldCenter).toNat + 1 := by omega
    refine ⟨h0, h7, rfl, ?_, ?_, ?_⟩
    · simp only [computeRequiredInitialRootTileKeys]
      rw [if_neg hcond]
      rw [List.length_map, List.length_range, hn]
    · simp only [computeRequiredInitialRootTileKeys]
      rw [if_neg hcond]
      rw [List.map_map, hn]
      rfl
    · intro e he
      simp only [computeRequiredInitialRootTileKeys] at he
      rw [if_neg hcond] at he
      rcases List.mem_map.mp he with ⟨i, _, rfl⟩
      exact ⟨rfl, rfl, rfl, rfl⟩

/-- Witness for C3 at concrete inputs: a spherical environment yields the
single offset-0 root entry, and a planar wraparound environment yields
2 * offsetRange + 1 entries. -/
theorem c3_root_selector_witness :
    computeRequiredInitialRootTileKeys exEnvSpherical ⟨0, 0, 0⟩ = [⟨⟨0, 0, 0⟩, 0, 0, 0, 0⟩]
    ∧ (computeRequiredInitialRootTileKeys exEnvPlanar ⟨0, 0, 0⟩).length
        = 2 * (selectorOffsetRange exEnvPlanar ⟨0, 0, 0⟩).toNat + 1 :=
  ⟨(c3_root_selector exEnvSpherical ⟨0, 0, 0⟩).1 (Or.inl (by decide)),
   ((c3_root_selector exEnvPlanar ⟨0, 0, 0⟩).2 rfl rfl).2.2.2.1⟩

/-! ### Claim C2: the calculationFinal flag -/

theorem processChildren_calcFinal (fi : FrustumIntersection) (ts : TilingScheme)
    (ersUsed : Option ElevationRangeSource) (parent : TileKey) (off : Int) :
    ∀ (cs : List TileKey) (st st' : ChildrenState),
      processChildren fi ts ersUsed parent off cs st = some st' →
      st.calculationFinal = st.queries.all queryFinal →
      st'.calculationFinal = st'.queries.all queryFinal := by
  intro cs
  induction cs with
  | nil =>
    intro st st' h hpre
    simp only [processChildren] at h
    cases h
    exact hpre
  | cons c rest ih =>
    intro st st' h hpre
    simp only [processChildren] at h
    split at h
    · exact absurd h (by simp)
    · cases ersUsed with
      | none =>
        dsimp only at h
        split at h <;> split at h <;> exact ih _ _ h hpre
      | some ers =>
        dsimp only at h
        split at h <;> split at h <;>
          (refine ih _ _ h ?_
           simp only [List.all_append, List.all_cons, List.all_nil, Bool.and_true, queryFinal]
           rw [hpre])

theorem computeLoop_calcFinal (fi : FrustumIntersection) (ts : TilingScheme) (maxL : Nat)
    (ersUsed : Option ElevationRangeSource) (zls : List ℚ) (dss : List DataSource) :
    ∀ (fuel : Nat) (m : TileEntryMap) (cf : Bool) (qs : List (TileKey × CalculationStatus))
      (cons : List ConsideredChild) (wl : List TileKeyEntry) (res : ComputeResult),
      computeLoop fi ts maxL ersUsed zls dss fuel m cf qs cons wl = .ok res →
      cf = qs.all queryFinal →
      res.calculationFinal = res.queries.all queryFinal := by
  intro fuel
  induction fuel with
  | zero =>
    intro m cf qs cons wl res h hpre
    cases wl with
    | nil =>
      simp only [computeLoop] at h
      cases h
      exact hpre
    | cons e rest =>
      simp only [computeLoop] at h
      exact absurd h (by simp)
  | succ fuel ih =>
    intro m cf qs cons wl res h hpre
    cases wl with
    | nil =>
      simp only [computeLoop] at h
      cases h
      exact hpre
    | cons e rest =>
      simp only [computeLoop] at h
      split at h
      · exact ih _ _ _ _ _ _ h hpre
      · split at h
        · exact ih _ _ _ _ _ _ h hpre
        · split at h
          · exact absurd h (by simp)
          · split at h
            · rcases hpc : processChildren fi ts ersUsed e.tileKey e.offset
                  (ts.getSubTileKeys e.tileKey) ⟨m, cf, qs, cons, []⟩ with _ | st
              · rw [hpc] at h
                exact absurd h (by simp)
              · rw [hpc] at h
                exact ih _ _ _ _ _ _ h
                  (processChildren_calcFinal fi ts ersUsed e.tileKey e.offset _ _ _ hpc hpre)
            · exact absurd h (by simp)

/-- C2: after every successful call to `compute`, the returned
calculationFinal flag is true exactly when every elevation query made
during the traversal returned the FinalPrecise status: it starts true and
is only ever ANDed with the outcome of each query, so a single non-final
reading anywhere forces it false for the whole call and it is never set
back to true. -/
theorem c2_calculation_final (fi : FrustumIntersection) (ts : TilingScheme) (maxL : Nat)
    (ers : Option ElevationRangeSource) (zls : List ℚ) (dss : List DataSource) (fuel : Nat)
    (res : ComputeResult) (h : compute fi ts maxL ers zls dss fuel = .ok res) :
    res.calculationFinal = res.queries.all queryFinal := by
  simp only [compute] at h
  exact computeLoop_calcFinal fi ts maxL _ zls dss fuel _ _ _ _ _ res h rfl

/-- Witness for C2: a concrete call (data source never subdivides) whose
result is the seeded root map with no queries and a true flag. -/
theorem c2_calculation_final_witness :
    (ComputeResult.mk [(getKeyForTileKeyAndOffset ⟨0, 0, 0⟩ 0, ⟨⟨0, 0, 0⟩, ⊤, 0, 0, 0⟩)]
        true [] []).calculationFinal
      = (ComputeResult.mk [(getKeyForTileKeyAndOffset ⟨0, 0, 0⟩ 0, ⟨⟨0, 0, 0⟩, ⊤, 0, 0, 0⟩)]
        true [] []).queries.all queryFinal :=
  c2_calculation_final exFrustumAll exTilingScheme 0 none [0] [exDataSourceNo] 5
    (ComputeResult.mk [(getKeyForTileKeyAndOffset ⟨0, 0, 0⟩ 0, ⟨⟨0, 0, 0⟩, ⊤, 0, 0, 0⟩)]
      true [] []) (by with_unfolding_all rfl)

/-! ### Claim C10: spherical projections never produce wraparound offsets -/

theorem processChildren_newEntries (fi : FrustumIntersection) (ts : TilingScheme)
    (ersUsed : Option ElevationRangeSource) (parent : TileKey) (off : Int) :
    ∀ (cs : List TileKey) (st st' : ChildrenState),
      processChildren fi ts ersUsed parent off cs st = some st' →
      (∀ p ∈ st'.tileKeyEntries, p ∈ st.tileKeyEntries ∨ p.2.offset = off)
      ∧ (∀ e ∈ st'.pushed, e ∈ st.pushed ∨ e.offset = off) := by
  intro cs
  induction cs with
  | nil =>
    intro st st' h
    simp only [processChildren] at h
    cases h
    exact ⟨fun p hp => Or.inl hp, fun e he => Or.inl he⟩
  | cons c rest ih =>
    intro st st' h
    simp only [processChildren] at h
    split at h
    · exact absurd h (by simp)
    · have step :
          ∀ st1 : ChildrenState,
            processChildren fi ts ersUsed parent off rest st1 = some st' →
            (∀ p ∈ st1.tileKeyEntries, p ∈ st.tileKeyEntries ∨ p.2.offset = off) →
            (∀ e ∈ st1.pushed, e ∈ st.pushed ∨ e.offset = off) →
            (∀ p ∈ st'.tileKeyEntries, p ∈ st.tileKeyEntries ∨ p.2.offset = off)
            ∧ (∀ e ∈ st'.pushed, e ∈ st.pushed ∨ e.offset = off) := by
        intro st1 h1 hm hp
        obtain ⟨im, ip⟩ := ih st1 st' h1
        refine ⟨fun p hps => ?_, fun e hes => ?_⟩
        · rcases im p hps with h2 | h2
          · exact hm p h2
          · exact Or.inr h2
        · rcases ip e hes with h2 | h2
          · exact hp e h2
          · exact Or.inr h2
      cases ersUsed with
      | none =>
        dsimp only at h
        split at h <;> split at h <;>
          (refine step _ h (fun p hp => ?_) (fun e he => ?_)
           · first
             | (rcases mapSet_mem hp with h2 | h2
                · exact Or.inr (by rw [h2])
                · exact Or.inl h2)
             | exact Or.inl hp
           · first
             | (rcases List.mem_append.mp he with h2 | h2
                · exact Or.inl h2
                · exact Or.inr (by have h3 := List.mem_singleton.mp h2; rw [h3])
                )
             | exact Or.inl he)
      | some ers =>
        dsimp only at h
        split at h <;> split at h <;>
          (refine step _ h (fun p hp => ?_) (fun e he => ?_)
           · first
             | (rcases mapSet_mem hp with h2 | h2
                · exact Or.inr (by rw [h2])
                · exact Or.inl h2)
             | exact Or.inl hp
           · first
             | (rcases List.mem_append.mp he with h2 | h2
                · exact Or.inl h2
                · exact Or.inr (by have h3 := List.mem_singleton.mp h2; rw [h3])
                )
             | exact Or.inl he)

theorem computeLoop_offsets (fi : FrustumIntersection) (ts : TilingScheme) (maxL : Nat)
    (ersUsed : Option ElevationRangeSource) (zls : List ℚ) (dss : List DataSource) :
    ∀ (fuel : Nat) (m : TileEntryMap) (cf : Bool) (qs : List (TileKey × CalculationStatus))
      (cons : List ConsideredChild) (wl : List TileKeyEntry) (res : ComputeResult),
      computeLoop fi ts maxL ersUsed zls dss fuel m cf qs cons wl = .ok res →
      (∀ p ∈ m, p.2.offset = 0) → (∀ e ∈ wl, e.offset = 0) →
      ∀ p ∈ res.tileKeyEntries, p.2.offset = 0 := by
  intro fuel
  induction fuel with
  | zero =>
    intro m cf qs cons wl res h hm hw
    cases wl with
    | nil =>
      simp only [computeLoop] at h
      cases h
      exact hm
    | cons e rest =>
      simp only [computeLoop] at h
      exact absurd h (by simp)
  | succ fuel ih =>
    intro m cf qs cons wl res h hm hw
    cases wl with
    | nil =>
      simp only [computeLoop] at h
      cases h
      exact hm
    | cons e rest =>
      have hw1 : ∀ x ∈ rest, x.offset = 0 := fun x hx => hw x (List.mem_cons_of_mem e hx)
      simp only [computeLoop] at h
      split at h
      · exact ih _ _ _ _ _ _ h hm hw1
      · split at h
        · exact ih _ _ _ _ _ _ h hm hw1
        · split at h
          · exact absurd h (by simp)
          · split at h
            · rcases hpc : processChildren fi ts ersUsed e.tileKey e.offset
                  (ts.getSubTileKeys e.tileKey) ⟨m, cf, qs, cons, []⟩ with _ | st
              · rw [hpc] at h
                exact absurd h (by simp)
              · rw [hpc] at h
                obtain ⟨im, ip⟩ :=
                  processChildren_newEntries fi ts ersUsed e.tileKey e.offset _ _ _ hpc
                have he0 : e.offset = 0 := hw e (List.mem_cons_self e rest)
                refine ih _ _ _ _ _ _ h (fun p hp => ?_) (fun x hx => ?_)
                · rcases im p hp with h2 | h2
                  · exact hm p h2
                  · rw [h2, he0]
                · rcases List.mem_append.mp hx with h2 | h2
                  · rcases ip x (List.mem_reverse.mp h2) with h3 | h3
                    · exact absurd h3 (List.not_mem_nil x)
                    · rw [h3, he0]
                  · exact hw1 x h2
            · exact absurd h (by simp)

theorem initialMap_mem (roots : List TileKeyEntry) :
    ∀ (acc : TileEntryMap) (p : Nat × TileKeyEntry),
      p ∈ roots.foldl
        (fun m item => mapSet m (getKeyForTileKeyAndOffset item.tileKey item.offset)
          ⟨item.tileKey, ⊤, item.offset, item.minElevation, item.maxElevation⟩) acc →
      p ∈ acc
      ∨ ∃ r ∈ roots, p.2 = ⟨r.tileKey, ⊤, r.offset, r.minElevation, r.maxElevation⟩ := by
  induction roots with
  | nil =>
    intro acc p hp
    exact Or.inl hp
  | cons r rs ih =>
    intro acc p hp
    rw [List.foldl_cons] at hp
    rcases ih _ p hp with h2 | ⟨r2, hr2, he2⟩
    · rcases mapSet_mem h2 with h3 | h3
      · exact Or.inr ⟨r, List.mem_cons_self r rs, by rw [h3]⟩
      · exact Or.inl h3
    · exact Or.inr ⟨r2, List.mem_cons_of_mem r hr2, he2⟩

/-- C10: wraparound offsets apply only to planar projections. For a
spherical projection the root key selector produces exactly one root entry
with offset 0 even when the tile wrapping flag is enabled, and every entry
of the result of a traversal seeded with those roots has offset 0. -/
theorem c10_spherical_offsets (env : RootKeyEnv)
    (Hsph : env.projection.type = ProjectionType.Spherical) (worldCenter : Vector3)
    (fi : FrustumIntersection)
    (Hroots : fi.rootTileKeys = computeRequiredInitialRootTileKeys env worldCenter)
    (ts : TilingScheme) (maxL : Nat) (ers : Option ElevationRangeSource) (zls : List ℚ)
    (dss : List DataSource) (fuel : Nat) (res : ComputeResult)
    (h : compute fi ts maxL ers zls dss fuel = .ok res) :
    computeRequiredInitialRootTileKeys env worldCenter = [⟨⟨0, 0, 0⟩, 0, 0, 0, 0⟩]
    ∧ res.tileKeyEntries.all (fun p => p.2.offset == 0) = true := by
  have hsel : computeRequiredInitialRootTileKeys env worldCenter
      = [⟨⟨0, 0, 0⟩, 0, 0, 0, 0⟩] := by
    simp only [computeRequiredInitialRootTileKeys]
    rw [if_pos (Or.inl (by rw [Hsph]; exact fun hc => ProjectionType.noConfusion hc))]
  have hroots0 : ∀ r ∈ fi.rootTileKeys, r.offset = 0 := by
    rw [Hroots, hsel]
    intro r hr
    rw [List.mem_singleton.mp hr]
  refine ⟨hsel, List.all_eq_true.mpr fun p hp => ?_⟩
  simp only [compute] at h
  have hall := computeLoop_offsets fi ts maxL _ zls dss fuel _ _ _ _ _ res h
    (fun q hq => by
      rcases initialMap_mem fi.rootTileKeys [] q hq with h2 | ⟨r, hr, he⟩
      · exact absurd h2 (List.not_mem_nil q)
      · rw [he]
        exact hroots0 r hr)
    (fun e he => hroots0 e (List.mem_reverse.mp he))
  exact beq_iff_eq.mpr (hall p hp)

/-- Witness for C10: a concrete spherical environment and a traversal over
its roots. -/
theorem c10_spherical_offsets_witness :
    computeRequiredInitialRootTileKeys exEnvSpherical ⟨0, 0, 0⟩ = [⟨⟨0, 0, 0⟩, 0, 0, 0, 0⟩]
    ∧ (ComputeResult.mk [(getKeyForTileKeyAndOffset ⟨0, 0, 0⟩ 0, ⟨⟨0, 0, 0⟩, ⊤, 0, 0, 0⟩)]
        true [] []).tileKeyEntries.all (fun p => p.2.offset == 0) = true :=
  c10_spherical_offsets exEnvSpherical rfl ⟨0, 0, 0⟩ exSphFrustum rfl exTilingScheme 0 none
    [0] [exDataSourceNo] 5
    (ComputeResult.mk [(getKeyForTileKeyAndOffset ⟨0, 0, 0⟩ 0, ⟨⟨0, 0, 0⟩, ⊤, 0, 0, 0⟩)]
      true [] []) (by with_unfolding_all rfl)

/-! ### Claim C8: a mismatched elevation source is silently ignored -/

theorem processChildren_none_cfqs (fi : FrustumIntersection) (ts : TilingScheme)
    (parent : TileKey) (off : Int) :
    ∀ (cs : List TileKey) (st st' : ChildrenState),
      processChildren fi ts none parent off cs st = some st' →
      st'.calculationFinal = st.calculationFinal ∧ st'.queries = st.queries := by
  intro cs
  induction cs with
  | nil =>
    intro st st' h
    simp only [processChildren] at h
    cases h
    exact ⟨rfl, rfl⟩
  | cons c rest ih =>
    intro st st' h
    simp only [processChildren] at h
    split at h
    · exact absurd h (by simp)
    · split at h <;> split at h <;>
        (have h9 := ih _ _ h
         exact ⟨h9.1, h9.2⟩)

theorem processChildren_none_elev (fi : FrustumIntersection) (ts : TilingScheme)
    (parent : TileKey) (off : Int)
    (Halt : ∀ tk, (ts.getGeoBox tk).southWest.altitude = 0
      ∧ (ts.getGeoBox tk).northEast.altitude = 0) :
    ∀ (cs : List TileKey) (st st' : ChildrenState),
      processChildren fi ts none parent off cs st = some st' →
      (∀ p ∈ st.tileKeyEntries, p.2.minElevation = 0 ∧ p.2.maxElevation = 0) →
      ∀ p ∈ st'.tileKeyEntries, p.2.minElevation = 0 ∧ p.2.maxElevation = 0 := by
  intro cs
  induction cs with
  | nil =>
    intro st st' h hm
    simp only [processChildren] at h
    cases h
    exact hm
  | cons c rest ih =>
    intro st st' h hm
    simp only [processChildren] at h
    split at h
    · exact absurd h (by simp)
    · split at h <;> split at h <;>
        refine ih _ _ h (fun p hp => ?_) <;>
        first
        | (rcases mapSet_mem hp with h2 | h2
           · rw [h2]
             exact ⟨by simp [getGeoBox]; exact (Halt c).1, by simp [getGeoBox]; exact (Halt c).2⟩
           · exact hm p h2)
        | exact hm p hp

theorem computeLoop_none_cfqs (fi : FrustumIntersection) (ts : TilingScheme) (maxL : Nat)
    (zls : List ℚ) (dss : List DataSource) :
    ∀ (fuel : Nat) (m : TileEntryMap) (cf : Bool) (qs : List (TileKey × CalculationStatus))
      (cons : List ConsideredChild) (wl : List TileKeyEntry) (res : ComputeResult),
      computeLoop fi ts maxL none zls dss fuel m cf qs cons wl = .ok res →
      res.calculationFinal = cf ∧ res.queries = qs := by
  intro fuel
  induction fuel with
  | zero =>
    intro m cf qs cons wl res h
    cases wl with
    | nil =>
      simp only [computeLoop] at h
      cases h
      exact ⟨rfl, rfl⟩
    | cons e rest =>
      simp only [computeLoop] at h
      exact absurd h (by simp)
  | succ fuel ih =>
    intro m cf qs cons wl res h
    cases wl with
    | nil =>
      simp only [computeLoop] at h
      cases h
      exact ⟨rfl, rfl⟩
    | cons e rest =>
      simp only [computeLoop] at h
      split at h
      · exact ih _ _ _ _ _ _ h
      · split at h
        · exact ih _ _ _ _ _ _ h
        · split at h
          · exact absurd h (by simp)
          · split at h
            · rcases hpc : processChildren fi ts none e.tileKey e.offset
                  (ts.getSubTileKeys e.tileKey) ⟨m, cf, qs, cons, []⟩ with _ | st
              · rw [hpc] at h
                exact absurd h (by simp)
              · rw [hpc] at h
                obtain ⟨hcf, hqs⟩ := processChildren_none_cfqs fi ts e.tileKey e.offset _ _ _ hpc
                obtain ⟨h1, h2⟩ := ih _ _ _ _ _ _ h
                exact ⟨h1.trans hcf, h2.trans hqs⟩
            · exact absurd h (by simp)

theorem computeLoop_none_elev (fi : FrustumIntersection) (ts : TilingScheme) (maxL : Nat)
    (zls : List ℚ) (dss : List DataSource)
    (Halt : ∀ tk, (ts.getGeoBox tk).southWest.altitude = 0
      ∧ (ts.getGeoBox tk).northEast.altitude = 0) :
    ∀ (fuel : Nat) (m : TileEntryMap) (cf : Bool) (qs : List (TileKey × CalculationStatus))
      (cons : List ConsideredChild) (wl : List TileKeyEntry) (res : ComputeResult),
      computeLoop fi ts maxL none zls dss fuel m cf qs cons wl = .ok res →
      (∀ p ∈ m, p.2.minElevation = 0 ∧ p.2.maxElevation = 0) →
      ∀ p ∈ res.tileKeyEntries, p.2.minElevation = 0 ∧ p.2.maxElevation = 0 := by
  intro fuel
  induction fuel with
  | zero =>
    intro m cf qs cons wl res h hm
    cases wl with
    | nil =>
      simp only [computeLoop] at h
      cases h
      exact hm
    | cons e rest =>
      simp only [computeLoop] at h
      exact absurd h (by simp)
  | succ fuel ih =>
    intro m cf qs cons wl res h hm
    cases wl with
    | nil =>
      simp only [computeLoop] at h
      cases h
      exact hm
    | cons e rest =>
      simp only [computeLoop] at h
      split at h
      · exact ih _ _ _ _ _ _ h hm
      · split at h
        · exact ih _ _ _ _ _ _ h hm
        · split at h
          · exact absurd h (by simp)
          · split at h
            · rcases hpc : processChildren fi ts none e.tileKey e.offset
                  (ts.getSubTileKeys e.tileKey) ⟨m, cf, qs, cons, []⟩ with _ | st
              · rw [hpc] at h
                exact absurd h (by simp)
              · rw [hpc] at h
                exact ih _ _ _ _ _ _ h
                  (processChildren_none_elev fi ts e.tileKey e.offset Halt _ _ _ hpc hm)
            · exact absurd h (by simp)

/-- C8: when the supplied elevation range source has a different tiling
scheme than the one being traversed, `compute` behaves exactly as if no
elevation source were supplied: the call returns the same outcome, the
source is never queried, calculationFinal remains true, and (when the
tiling scheme reports zero-altitude boxes and the roots carry zero
elevations) every entry keeps zero elevation bounds. -/
theorem c8_mismatched_elevation_source (fi : FrustumIntersection) (ts : TilingScheme)
    (maxL : Nat) (ers : ElevationRangeSource) (Hmis : ers.tilingScheme.id ≠ ts.id)
    (zls : List ℚ) (dss : List DataSource) (fuel : Nat) :
    compute fi ts maxL (some ers) zls dss fuel = compute fi ts maxL none zls dss fuel
    ∧ ∀ res, compute fi ts maxL (some ers) zls dss fuel = .ok res →
        res.calculationFinal = true ∧ res.queries = []
        ∧ ((∀ tk, (ts.getGeoBox tk).southWest.altitude = 0
              ∧ (ts.getGeoBox tk).northEast.altitude = 0) →
           (∀ r ∈ fi.rootTileKeys, r.minElevation = 0 ∧ r.maxElevation = 0) →
           res.tileKeyEntries.all
             (fun p => (p.2.minElevation == 0) && (p.2.maxElevation == 0)) = true) := by
  have hbeq : (ers.tilingScheme.id == ts.id) = false := by
    simpa using Hmis
  have heq : compute fi ts maxL (some ers) zls dss fuel
      = compute fi ts maxL none zls dss fuel := by
    simp only [compute, hbeq]
    rfl
  refine ⟨heq, fun res h => ?_⟩
  rw [heq] at h
  simp only [compute] at h
  obtain ⟨hcf, hqs⟩ := computeLoop_none_cfqs fi ts maxL zls dss fuel _ _ _ _ _ res h
  refine ⟨hcf, hqs, fun Halt Hroots => ?_⟩
  have helev := computeLoop_none_elev fi ts maxL zls dss Halt fuel _ _ _ _ _ res h
    (fun p hp => by
      rcases initialMap_mem fi.rootTileKeys [] p hp with h2 | ⟨r, hr, he⟩
      · exact absurd h2 (List.not_mem_nil p)
      · rw [he]
        exact Hroots r hr)
  refine List.all_eq_true.mpr fun p hp => ?_
  obtain ⟨h1, h2⟩ := helev p hp
  rw [h1, h2]
  simp

/-- Witness for C8: a concrete mismatched elevation source yields the same
outcome as supplying none. -/
theorem c8_mismatched_elevation_source_witness :
    compute exFrustumAll exTilingScheme 0 (some exElevationSourceMismatched) [0]
        [exDataSourceNo] 5
      = compute exFrustumAll exTilingScheme 0 none [0] [exDataSourceNo] 5 :=
  (c8_mismatched_elevation_source exFrustumAll exTilingScheme 0 exElevationSourceMismatched
    (by decide) [0] [exDataSourceNo] 5).1

/-! ### The traversal invariant (claims C1, C4, C6) -/

theorem mapGet_snoc_self {m : TileEntryMap} {k : Nat} (v : TileKeyEntry)
    (h : mapGet m k = none) : mapGet (m ++ [(k, v)]) k = some v := by
  rw [mapGet_append_of_none _ _ h, mapGet_cons]
  simp

theorem mapGet_snoc_ne {m : TileEntryMap} {k k' : Nat} (v : TileKeyEntry) (h : k ≠ k') :
    mapGet (m ++ [(k, v)]) k' = mapGet m k' := by
  rcases hm : mapGet m k' with _ | w
  · rw [mapGet_append_of_none _ _ hm, mapGet_cons, if_neg h]
    rfl
  · exact mapGet_append_of_some _ hm

theorem pairKey_inj : Function.Injective
    (fun q : TileKey × Int => getKeyForTileKeyAndOffset q.1 q.2) := by
  intro q1 q2 h
  obtain ⟨h1, h2⟩ := getKeyForTileKeyAndOffset_inj h
  exact Prod.ext h1 h2

theorem zero_lt_top_area : (0 : WithTop ℚ) < ⊤ := by
  exact lt_of_lt_of_le (WithTop.coe_lt_top (0 : ℚ) : ((0 : ℚ) : WithTop ℚ) < ⊤) le_rfl

theorem initial_foldl (roots : List TileKeyEntry) :
    ∀ acc : TileEntryMap,
      (∀ r ∈ roots, mapGet acc (getKeyForTileKeyAndOffset r.tileKey r.offset) = none) →
      (roots.map (fun r => getKeyForTileKeyAndOffset r.tileKey r.offset)).Nodup →
      roots.foldl
        (fun m item => mapSet m (getKeyForTileKeyAndOffset item.tileKey item.offset)
          ⟨item.tileKey, ⊤, item.offset, item.minElevation, item.maxElevation⟩) acc
        = acc ++ roots.map (fun r => (entryKey r, rootEntry r)) := by
  induction roots with
  | nil =>
    intro acc _ _
    simp
  | cons r rs ih =>
    intro acc hfresh hnd
    rw [List.foldl_cons,
      mapSet_of_none _ (hfresh r (List.mem_cons_self r rs))]
    rw [List.map_cons, List.nodup_cons] at hnd
    rw [ih _ ?_ hnd.2]
    · simp [List.append_assoc, entryKey, rootEntry]
    · intro r2 hr2
      rw [mapGet_snoc_ne _ ?_]
      · exact hfresh r2 (List.mem_cons_of_mem r hr2)
      · intro hk
        exact hnd.1 (hk ▸ List.mem_map.mpr ⟨r2, hr2, rfl⟩)

theorem initial_LoopInv (ts : TilingScheme) (maxL : Nat) (roots : List TileKeyEntry)
    (Hpairs : (roots.map (fun r => (r.tileKey, r.offset))).Nodup) :
    LoopInv ts maxL roots [] (roots.foldl
      (fun m item => mapSet m (getKeyForTileKeyAndOffset item.tileKey item.offset)
        ⟨item.tileKey, ⊤, item.offset, item.minElevation, item.maxElevation⟩) [])
      roots.reverse [] := by
  have hkeys : (roots.map (fun r => getKeyForTileKeyAndOffset r.tileKey r.offset)).Nodup := by
    have : (roots.map (fun r => (r.tileKey, r.offset))).map
        (fun q : TileKey × Int => getKeyForTileKeyAndOffset q.1 q.2)
        = roots.map (fun r => getKeyForTileKeyAndOffset r.tileKey r.offset) := by
      rw [List.map_map]
      rfl
    rw [← this]
    exact Hpairs.map pairKey_inj
  have hmap := initial_foldl roots [] (fun r _ => rfl) hkeys
  rw [hmap, List.nil_append]
  have hmem : ∀ p ∈ roots.map (fun r => (entryKey r, rootEntry r)),
      ∃ r ∈ roots, p = (entryKey r, rootEntry r) := by
    intro p hp
    rcases List.mem_map.mp hp with ⟨r, hr, he⟩
    exact ⟨r, hr, he.symm⟩
  have hget : ∀ r ∈ roots,
      mapGet (roots.map (fun r => (entryKey r, rootEntry r))) (entryKey r)
        = some (rootEntry r) := by
    intro r hr
    refine mapGet_of_mem_nodup (List.mem_map.mpr ⟨r, hr, rfl⟩) ?_
    rw [List.map_map]
    exact hkeys
  refine ⟨?_, ?_, ?_, ?_, ?_, ?_, ?_, ?_, ?_, ?_, ?_, ?_⟩
  · rw [List.map_map]
    exact hkeys
  · intro p hp
    rcases hmem p hp with ⟨r, _, rfl⟩
    rfl
  · intro p hp
    rcases hmem p hp with ⟨r, hr, rfl⟩
    exact Or.inl ⟨r, hr, rfl⟩
  · intro q hq
    exact absurd hq (List.not_mem_nil q)
  · intro q hq
    exact absurd hq (List.not_mem_nil q)
  · exact hget
  · intro e he
    exact ⟨rootEntry e, hget e (List.mem_reverse.mp he), zero_lt_top_area⟩
  · intro e _ hP
    exact absurd hP (List.not_mem_nil _)
  · have h2 : (roots.map entryPair).Nodup := Hpairs
    rw [List.map_reverse]
    exact List.nodup_reverse.mpr h2
  · intro c hc
    exact absurd hc (List.not_mem_nil c)
  · intro c hc
    exact absurd hc (List.not_mem_nil c)
  · intro c hc
    exact absurd hc (List.not_mem_nil c)

theorem coe_area_pos {A : ℚ} (h : 0 < A) : (0 : WithTop ℚ) < (A : WithTop ℚ) := by
  exact_mod_cast h

theorem pair_mem_snoc (P : List (TileKey × Int)) (q : TileKey × Int) : q ∈ P ++ [q] :=
  List.mem_append.mpr (Or.inr (List.mem_singleton.mpr rfl))

/-- Examining one more child whose area passed the visibility test
preserves the inner invariant. -/
theorem InnerInv_insert (ts : TilingScheme) (roots : List TileKeyEntry)
    (P : List (TileKey × Int)) (parent : TileKey) (off : Int) (m0 : TileEntryMap)
    (Hdisj : ∀ t1 t2 c, c ∈ ts.getSubTileKeys t1 → c ∈ ts.getSubTileKeys t2 → t1 = t2)
    {c : TileKey} {rest : List TileKey} {st : ChildrenState}
    (inv : InnerInv ts roots P parent off m0 (c :: rest) st)
    (A : ℚ) (hA : 0 < A) (minE maxE : ℚ) (cf' : Bool)
    (qs' : List (TileKey × CalculationStatus)) :
    InnerInv ts roots P parent off m0 rest
      ⟨mapSet st.tileKeyEntries (getKeyForTileKeyAndOffset c off)
          ⟨c, (A : WithTop ℚ), off, minE, maxE⟩,
        cf', qs', st.considered ++ [⟨parent, off, c, A⟩],
        st.pushed ++ [⟨c, (A : WithTop ℚ), off, minE, maxE⟩]⟩ := by
  have hcmem : c ∈ c :: rest := List.mem_cons_self c rest
  have hcsub : c ∈ ts.getSubTileKeys parent := inv.cs_sub c hcmem
  have hfresh : mapGet st.tileKeyEntries (getKeyForTileKeyAndOffset c off) = none :=
    inv.cs_fresh c hcmem
  have hnotrest : c ∉ rest := (List.nodup_cons.mp inv.cs_nodup).1
  have hrestnd : rest.Nodup := (List.nodup_cons.mp inv.cs_nodup).2
  set k := getKeyForTileKeyAndOffset c off with hk
  set entry : TileKeyEntry := ⟨c, (A : WithTop ℚ), off, minE, maxE⟩ with hentry
  have hset : mapSet st.tileKeyEntries k entry = st.tileKeyEntries ++ [(k, entry)] :=
    mapSet_of_none entry hfresh
  have hksub : ∀ k' v, mapGet st.tileKeyEntries k' = some v →
      mapGet (mapSet st.tileKeyEntries k entry) k' = some v := by
    intro k' v hv
    rw [hset]
    exact mapGet_append_of_some _ hv
  refine
    { parent_not_popped := inv.parent_not_popped
      keys_nodup := ?_
      keyed := ?_
      src := ?_
      popped_inMap := ?_
      roots_inMap := ?_
      cons_parents := ?_
      cons_child := ?_
      pruned_absent := ?_
      cs_sub := fun c2 hc2 => inv.cs_sub c2 (List.mem_cons_of_mem c hc2)
      cs_nodup := hrestnd
      cs_fresh := ?_
      cs_not_considered := ?_
      pushed_sub := ?_
      pushed_inMap := ?_
      pushed_nodup := ?_
      pushed_fresh := ?_
      pushed_not_cs := ?_
      extends0 := ?_ }
  · rw [hset, List.map_append, List.nodup_append]
    refine ⟨inv.keys_nodup, by simp, ?_⟩
    intro a ha hb
    simp only [List.map_cons, List.map_nil, List.mem_singleton] at hb
    rw [hb] at ha
    exact (mapGet_eq_none_iff.mp hfresh) ha
  · intro p hp
    rw [hset] at hp
    rcases List.mem_append.mp hp with h2 | h2
    · exact inv.keyed p h2
    · rw [List.mem_singleton.mp h2]
      try rfl
  · intro p hp
    rw [hset] at hp
    rcases List.mem_append.mp hp with h2 | h2
    · exact inv.src p h2
    · rw [List.mem_singleton.mp h2]
      exact Or.inr ⟨(parent, off), pair_mem_snoc P _, hcsub, rfl, coe_area_pos hA⟩
  · intro q hq
    rcases Option.isSome_iff_exists.mp (inv.popped_inMap q hq) with ⟨v, hv⟩
    rw [hksub _ _ hv]
    try rfl
  · intro r hr
    exact hksub _ _ (inv.roots_inMap r hr)
  · intro d hd
    rcases List.mem_append.mp hd with h2 | h2
    · exact inv.cons_parents d h2
    · rw [List.mem_singleton.mp h2]
      exact pair_mem_snoc P _
  · intro d hd
    rcases List.mem_append.mp hd with h2 | h2
    · exact inv.cons_child d h2
    · rw [List.mem_singleton.mp h2]
      exact hcsub
  · intro d hd hda
    rcases List.mem_append.mp hd with h2 | h2
    · have hne : k ≠ getKeyForTileKeyAndOffset d.child d.offset := by
        intro he
        obtain ⟨hc2, ho2⟩ := getKeyForTileKeyAndOffset_inj he
        have hdp : d.parent = parent :=
          Hdisj d.parent parent d.child (inv.cons_child d h2) (hc2 ▸ hcsub)
        exact inv.cs_not_considered c hcmem d h2 hdp ho2.symm hc2.symm
      rw [hset, mapGet_snoc_ne _ hne]
      exact inv.pruned_absent d h2 hda
    · rw [List.mem_singleton.mp h2] at hda
      exact absurd hA hda
  · intro c2 hc2
    have hne : k ≠ getKeyForTileKeyAndOffset c2 off := by
      intro he
      obtain ⟨hc3, _⟩ := getKeyForTileKeyAndOffset_inj he
      exact hnotrest (hc3 ▸ hc2)
    rw [hset, mapGet_snoc_ne _ hne]
    exact inv.cs_fresh c2 (List.mem_cons_of_mem c hc2)
  · intro c2 hc2 d hd hdp hdo
    rcases List.mem_append.mp hd with h2 | h2
    · exact inv.cs_not_considered c2 (List.mem_cons_of_mem c hc2) d h2 hdp hdo
    · rw [List.mem_singleton.mp h2]
      intro he
      have h3 : c = c2 := he
      rw [← h3] at hc2
      exact hnotrest hc2
  · intro e he
    rcases List.mem_append.mp he with h2 | h2
    · exact inv.pushed_sub e h2
    · rw [List.mem_singleton.mp h2]
      exact ⟨hcsub, rfl, coe_area_pos hA⟩
  · intro e he
    rcases List.mem_append.mp he with h2 | h2
    · exact hksub _ _ (inv.pushed_inMap e h2)
    · rw [List.mem_singleton.mp h2]
      rw [hset]
      exact mapGet_snoc_self entry hfresh
  · rw [List.map_append, List.nodup_append]
    refine ⟨inv.pushed_nodup, by simp, ?_⟩
    intro a ha hb
    simp only [List.map_cons, List.map_nil, List.mem_singleton] at hb
    rcases List.mem_map.mp ha with ⟨e, he, hea⟩
    have : e.tileKey ∈ c :: rest := by
      rw [hea, hb]
      exact hcmem
    exact inv.pushed_not_cs e he this
  · intro e he
    rcases List.mem_append.mp he with h2 | h2
    · exact inv.pushed_fresh e h2
    · rw [List.mem_singleton.mp h2]
      rcases hm0 : mapGet m0 (entryKey entry) with _ | v
      · rfl
      · have := inv.extends0 _ _ hm0
        rw [show entryKey entry = k from rfl] at this
        rw [this] at hfresh
        exact absurd hfresh (by simp)
  · intro e he
    rcases List.mem_append.mp he with h2 | h2
    · intro hmem
      exact inv.pushed_not_cs e h2 (List.mem_cons_of_mem c hmem)
    · rw [List.mem_singleton.mp h2]
      exact hnotrest
  · intro k' v hv
    exact hksub _ _ (inv.extends0 k' v hv)

/-- Examining one more child that the area test pruned preserves the
inner invariant. -/
theorem InnerInv_skip (ts : TilingScheme) (roots : List TileKeyEntry)
    (P : List (TileKey × Int)) (parent : TileKey) (off : Int) (m0 : TileEntryMap)
    {c : TileKey} {rest : List TileKey} {st : ChildrenState}
    (inv : InnerInv ts roots P parent off m0 (c :: rest) st)
    (A : ℚ) (hA : ¬0 < A) (cf' : Bool) (qs' : List (TileKey × CalculationStatus)) :
    InnerInv ts roots P parent off m0 rest
      ⟨st.tileKeyEntries, cf', qs', st.considered ++ [⟨parent, off, c, A⟩], st.pushed⟩ := by
  have hcmem : c ∈ c :: rest := List.mem_cons_self c rest
  have hcsub : c ∈ ts.getSubTileKeys parent := inv.cs_sub c hcmem
  have hnotrest : c ∉ rest := (List.nodup_cons.mp inv.cs_nodup).1
  refine
    { parent_not_popped := inv.parent_not_popped
      keys_nodup := inv.keys_nodup
      keyed := inv.keyed
      src := inv.src
      popped_inMap := inv.popped_inMap
      roots_inMap := inv.roots_inMap
      cons_parents := ?_
      cons_child := ?_
      pruned_absent := ?_
      cs_sub := fun c2 hc2 => inv.cs_sub c2 (List.mem_cons_of_mem c hc2)
      cs_nodup := (List.nodup_cons.mp inv.cs_nodup).2
      cs_fresh := fun c2 hc2 => inv.cs_fresh c2 (List.mem_cons_of_mem c hc2)
      cs_not_considered := ?_
      pushed_sub := inv.pushed_sub
      pushed_inMap := inv.pushed_inMap
      pushed_nodup := inv.pushed_nodup
      pushed_fresh := inv.pushed_fresh
      pushed_not_cs := fun e he hmem =>
        inv.pushed_not_cs e he (List.mem_cons_of_mem c hmem)
      extends0 := inv.extends0 }
  · intro d hd
    rcases List.mem_append.mp hd with h2 | h2
    · exact inv.cons_parents d h2
    · rw [List.mem_singleton.mp h2]
      exact pair_mem_snoc P _
  · intro d hd
    rcases List.mem_append.mp hd with h2 | h2
    · exact inv.cons_child d h2
    · rw [List.mem_singleton.mp h2]
      exact hcsub
  · intro d hd hda
    rcases List.mem_append.mp hd with h2 | h2
    · exact inv.pruned_absent d h2 hda
    · rw [List.mem_singleton.mp h2]
      exact inv.cs_fresh c hcmem
  · intro c2 hc2 d hd hdp hdo
    rcases List.mem_append.mp hd with h2 | h2
    · exact inv.cs_not_considered c2 (List.mem_cons_of_mem c hc2) d h2 hdp hdo
    · rw [List.mem_singleton.mp h2]
      intro he
      have h3 : c = c2 := he
      rw [← h3] at hc2
      exact hnotrest hc2

theorem processChildren_master (fi : FrustumIntersection) (ts : TilingScheme)
    (ersUsed : Option ElevationRangeSource) (roots : List TileKeyEntry)
    (P : List (TileKey × Int)) (parent : TileKey) (off : Int) (m0 : TileEntryMap)
    (Hdisj : ∀ t1 t2 c, c ∈ ts.getSubTileKeys t1 → c ∈ ts.getSubTileKeys t2 → t1 = t2) :
    ∀ (cs : List TileKey) (st : ChildrenState) (out : Option ChildrenState),
      processChildren fi ts ersUsed parent off cs st = out →
      InnerInv ts roots P parent off m0 cs st →
      ∃ st', out = some st' ∧ InnerInv ts roots P parent off m0 [] st' := by
  intro cs
  induction cs with
  | nil =>
    intro st out h inv
    simp only [processChildren] at h
    refine ⟨st, h.symm, ?_⟩
    exact { inv with
      cs_sub := fun c hc => absurd hc (List.not_mem_nil c)
      cs_nodup := List.nodup_nil
      cs_fresh := fun c hc => absurd hc (List.not_mem_nil c)
      cs_not_considered := fun c hc => absurd hc (List.not_mem_nil c)
      pushed_not_cs := fun e _ => List.not_mem_nil e.tileKey }
  | cons c rest ih =>
    intro st out h inv
    have hfresh := inv.cs_fresh c (List.mem_cons_self c rest)
    simp only [processChildren] at h
    split at h
    · rename_i hs
      rw [hfresh] at hs
      exact absurd hs (by simp)
    · cases ersUsed with
      | none =>
        split at h <;> split at h <;>
          first
          | exact ih _ _ h
              (InnerInv_insert ts roots P parent off m0 Hdisj inv _ (by assumption) _ _ _ _)
          | exact ih _ _ h
              (InnerInv_skip ts roots P parent off m0 inv _ (by assumption) _ _)
      | some ers =>
        split at h <;> split at h <;>
          first
          | exact ih _ _ h
              (InnerInv_insert ts roots P parent off m0 Hdisj inv _ (by assumption) _ _ _ _)
          | exact ih _ _ h
              (InnerInv_skip ts roots P parent off m0 inv _ (by assumption) _ _)

theorem LoopInv_tail {ts : TilingScheme} {maxL : Nat} {roots : List TileKeyEntry}
    {P : List (TileKey × Int)} {m : TileEntryMap} {cons : List ConsideredChild}
    {e : TileKeyEntry} {rest : List TileKeyEntry}
    (inv : LoopInv ts maxL roots P m (e :: rest) cons) :
    LoopInv ts maxL roots P m rest cons :=
  { inv with
    wl_inMap := fun x hx => inv.wl_inMap x (List.mem_cons_of_mem e hx)
    wl_notPopped := fun x hx => inv.wl_notPopped x (List.mem_cons_of_mem e hx)
    wl_nodup := by
      have h2 := inv.wl_nodup
      rw [List.map_cons, List.nodup_cons] at h2
      exact h2.2 }

theorem LoopInv_empty_wl {ts : TilingScheme} {maxL : Nat} {roots : List TileKeyEntry}
    {P : List (TileKey × Int)} {m : TileEntryMap} {wl : List TileKeyEntry}
    {cons : List ConsideredChild} (inv : LoopInv ts maxL roots P m wl cons) :
    LoopInv ts maxL roots P m [] cons :=
  { inv with
    wl_inMap := fun e he => absurd he (List.not_mem_nil e)
    wl_notPopped := fun e he => absurd he (List.not_mem_nil e)
    wl_nodup := by simp }

/-- Establishing the inner invariant at the moment a work list entry is
popped and allowed to subdivide. This contains the argument that the
composite key of every child is absent from the result map, which is
exactly the assertion of the source. -/
theorem InnerInv_start (ts : TilingScheme) (maxL : Nat) (roots : List TileKeyEntry)
    (P : List (TileKey × Int)) (m : TileEntryMap) (cf : Bool)
    (qs : List (TileKey × CalculationStatus)) (cons : List ConsideredChild)
    {e : TileKeyEntry} {rest : List TileKeyEntry}
    (Hlevel : ∀ t c, c ∈ ts.getSubTileKeys t → c.level = t.level + 1)
    (Hdisj : ∀ t1 t2 c, c ∈ ts.getSubTileKeys t1 → c ∈ ts.getSubTileKeys t2 → t1 = t2)
    (Hnodup : ∀ t, (ts.getSubTileKeys t).Nodup)
    (Hroots0 : ∀ r ∈ roots, r.tileKey.level = 0)
    (inv : LoopInv ts maxL roots P m (e :: rest) cons) :
    InnerInv ts roots P e.tileKey e.offset m (ts.getSubTileKeys e.tileKey)
      ⟨m, cf, qs, cons, []⟩ := by
  have hemem : e ∈ e :: rest := List.mem_cons_self e rest
  have hnotP : (e.tileKey, e.offset) ∉ P := inv.wl_notPopped e hemem
  refine
    { parent_not_popped := hnotP
      keys_nodup := inv.keys_nodup
      keyed := inv.keyed
      src := ?_
      popped_inMap := ?_
      roots_inMap := inv.roots_inMap
      cons_parents := ?_
      cons_child := inv.cons_child
      pruned_absent := inv.pruned_absent
      cs_sub := fun c hc => hc
      cs_nodup := Hnodup e.tileKey
      cs_fresh := ?_
      cs_not_considered := ?_
      pushed_sub := fun x hx => absurd hx (List.not_mem_nil x)
      pushed_inMap := fun x hx => absurd hx (List.not_mem_nil x)
      pushed_nodup := List.nodup_nil
      pushed_fresh := fun x hx => absurd hx (List.not_mem_nil x)
      pushed_not_cs := fun x hx => absurd hx (List.not_mem_nil x)
      extends0 := fun k v hv => hv }
  · intro p hp
    rcases inv.src p hp with h2 | ⟨q, hq, h3⟩
    · exact Or.inl h2
    · exact Or.inr ⟨q, List.mem_append_left _ hq, h3⟩
  · intro q hq
    rcases List.mem_append.mp hq with h2 | h2
    · exact inv.popped_inMap q h2
    · rcases inv.wl_inMap e hemem with ⟨en, hen, _⟩
      simp only [entryKey] at hen
      rw [List.mem_singleton.mp h2, hen]
      rfl
  · intro d hd
    exact List.mem_append_left _ (inv.cons_parents d hd)
  · intro c hc
    rcases hg : mapGet m (getKeyForTileKeyAndOffset c e.offset) with _ | v
    · rfl
    · exfalso
      have hv := mem_of_mapGet_eq_some hg
      have hkeyed := inv.keyed _ hv
      dsimp only at hkeyed
      obtain ⟨htk, hoff⟩ := getKeyForTileKeyAndOffset_inj hkeyed.symm
      rcases inv.src _ hv with ⟨r, hr, hre⟩ | ⟨q, hq, hq1, hq2, _⟩
      · dsimp only at hre
        have hlv : v.tileKey.level = 0 := by
          rw [hre]
          exact Hroots0 r hr
        have hlc : c.level = e.tileKey.level + 1 := Hlevel e.tileKey c hc
        rw [htk] at hlv
        omega
      · dsimp only at hq1 hq2
        have hc1 : c ∈ ts.getSubTileKeys q.1 := htk ▸ hq1
        have hq3 : q.1 = e.tileKey := Hdisj q.1 e.tileKey c hc1 hc
        have hq4 : q.2 = e.offset := hq2.symm.trans hoff
        have hqe : q = (e.tileKey, e.offset) := Prod.ext hq3 hq4
        rw [hqe] at hq
        exact hnotP hq
  · intro c hc d hd hdp hdo
    exfalso
    have : (d.parent, d.offset) ∈ P := inv.cons_parents d hd
    rw [hdp, hdo] at this
    exact hnotP this

/-- Re-establishing the loop invariant after the children of a popped
entry have all been examined. -/
theorem LoopInv_after (ts : TilingScheme) (maxL : Nat) (roots : List TileKeyEntry)
    (P : List (TileKey × Int)) (m : TileEntryMap) (cons : List ConsideredChild)
    {e : TileKeyEntry} {rest : List TileKeyEntry}
    (Hlevel : ∀ t c, c ∈ ts.getSubTileKeys t → c.level = t.level + 1)
    (inv : LoopInv ts maxL roots P m (e :: rest) cons)
    (hlev : e.tileKey.level ≤ maxL) {st' : ChildrenState}
    (innerEnd : InnerInv ts roots P e.tileKey e.offset m [] st') :
    LoopInv ts maxL roots (P ++ [(e.tileKey, e.offset)]) st'.tileKeyEntries
      (st'.pushed.reverse ++ rest) st'.considered := by
  have hemem : e ∈ e :: rest := List.mem_cons_self e rest
  have htailnd : (rest.map entryPair).Nodup ∧ entryPair e ∉ rest.map entryPair := by
    have h2 := inv.wl_nodup
    rw [List.map_cons, List.nodup_cons] at h2
    exact ⟨h2.2, h2.1⟩
  have hpushed_pair : ∀ x ∈ st'.pushed, entryPair x = (x.tileKey, e.offset) := by
    intro x hx
    have := (innerEnd.pushed_sub x hx).2.1
    simp only [entryPair, this]
  refine
    { keys_nodup := innerEnd.keys_nodup
      keyed := innerEnd.keyed
      src := innerEnd.src
      popped_inMap := innerEnd.popped_inMap
      popped_level := ?_
      roots_inMap := innerEnd.roots_inMap
      wl_inMap := ?_
      wl_notPopped := ?_
      wl_nodup := ?_
      cons_parents := innerEnd.cons_parents
      cons_child := innerEnd.cons_child
      pruned_absent := innerEnd.pruned_absent }
  · intro q hq
    rcases List.mem_append.mp hq with h2 | h2
    · exact inv.popped_level q h2
    · rw [List.mem_singleton.mp h2]
      exact hlev
  · intro x hx
    rcases List.mem_append.mp hx with h2 | h2
    · have h3 := List.mem_reverse.mp h2
      exact ⟨x, innerEnd.pushed_inMap x h3, (innerEnd.pushed_sub x h3).2.2⟩
    · rcases inv.wl_inMap x (List.mem_cons_of_mem e h2) with ⟨en, hen, hpos⟩
      exact ⟨en, innerEnd.extends0 _ _ hen, hpos⟩
  · intro x hx hmem
    rcases List.mem_append.mp hx with h2 | h2
    · have h3 := List.mem_reverse.mp h2
      have hxoff : x.offset = e.offset := (innerEnd.pushed_sub x h3).2.1
      rcases List.mem_append.mp hmem with h4 | h4
      · have h5 := inv.popped_inMap _ h4
        have h6 := innerEnd.pushed_fresh x h3
        simp only [entryKey] at h6
        simp only [entryPair] at h5
        rw [h6] at h5
        exact absurd h5 (by simp)
      · have h5 : (x.tileKey, x.offset) = (e.tileKey, e.offset) := by
          have := List.mem_singleton.mp h4
          simpa [entryPair] using this
        have h6 : x.tileKey = e.tileKey := congrArg Prod.fst h5
        have h7 : x.tileKey.level = e.tileKey.level + 1 :=
          Hlevel e.tileKey x.tileKey (innerEnd.pushed_sub x h3).1
        rw [h6] at h7
        omega
    · rcases List.mem_append.mp hmem with h4 | h4
      · exact inv.wl_notPopped x (List.mem_cons_of_mem e h2) h4
      · have h5 : entryPair x = entryPair e := by
          have := List.mem_singleton.mp h4
          simpa [entryPair] using this
        exact htailnd.2 (h5 ▸ List.mem_map.mpr ⟨x, h2, rfl⟩)
  · rw [List.map_append, List.nodup_append]
    refine ⟨?_, htailnd.1, ?_⟩
    · have h1 : ((st'.pushed.map entryPair).map Prod.fst).Nodup := by
        rw [List.map_map]
        exact innerEnd.pushed_nodup
      have h2 : (st'.pushed.map entryPair).Nodup := List.Nodup.of_map _ h1
      rw [List.map_reverse]
      exact List.nodup_reverse.mpr h2
    · intro a ha hb
      rw [List.map_reverse, List.mem_reverse] at ha
      rcases List.mem_map.mp ha with ⟨x, hx, hax⟩
      rcases List.mem_map.mp hb with ⟨y, hy, hay⟩
      have hpair : (x.tileKey, x.offset) = (y.tileKey, y.offset) := by
        simp only [entryPair] at hax hay
        exact hax.trans hay.symm
      have hkey : entryKey x = entryKey y := by
        have h1 : x.tileKey = y.tileKey := congrArg Prod.fst hpair
        have h2 : x.offset = y.offset := congrArg Prod.snd hpair
        simp only [entryKey, h1, h2]
      have h6 := innerEnd.pushed_fresh x hx
      rcases inv.wl_inMap y (List.mem_cons_of_mem e hy) with ⟨en, hen, _⟩
      rw [hkey, hen] at h6
      exact absurd h6 (by simp)

theorem computeLoop_master (fi : FrustumIntersection) (ts : TilingScheme) (maxL : Nat)
    (ersUsed : Option ElevationRangeSource) (zls : List ℚ) (dss : List DataSource)
    (roots : List TileKeyEntry)
    (Hlevel : ∀ t c, c ∈ ts.getSubTileKeys t → c.level = t.level + 1)
    (Hdisj : ∀ t1 t2 c, c ∈ ts.getSubTileKeys t1 → c ∈ ts.getSubTileKeys t2 → t1 = t2)
    (Hnodup : ∀ t, (ts.getSubTileKeys t).Nodup)
    (Hroots0 : ∀ r ∈ roots, r.tileKey.level = 0) :
    ∀ (fuel : Nat) (P : List (TileKey × Int)) (m : TileEntryMap) (cf : Bool)
      (qs : List (TileKey × CalculationStatus)) (cons : List ConsideredChild)
      (wl : List TileKeyEntry) (out : ComputeOutcome),
      computeLoop fi ts maxL ersUsed zls dss fuel m cf qs cons wl = out →
      LoopInv ts maxL roots P m wl cons →
      out ≠ .assertionFailed
      ∧ ∀ res, out = .ok res →
          ∃ P', LoopInv ts maxL roots P' res.tileKeyEntries [] res.considered := by
  intro fuel
  induction fuel with
  | zero =>
    intro P m cf qs cons wl out h inv
    cases wl with
    | nil =>
      simp only [computeLoop] at h
      refine ⟨by rw [← h]; simp, fun res hres => ?_⟩
      rw [← h] at hres
      have hres2 : (⟨m, cf, qs, cons⟩ : ComputeResult) = res := by
        cases hres
        rfl
      rw [← hres2]
      exact ⟨P, LoopInv_empty_wl inv⟩
    | cons e rest =>
      simp only [computeLoop] at h
      refine ⟨by rw [← h]; simp, fun res hres => ?_⟩
      rw [← h] at hres
      exact absurd hres (by simp)
  | succ fuel ih =>
    intro P m cf qs cons wl out h inv
    cases wl with
    | nil =>
      simp only [computeLoop] at h
      refine ⟨by rw [← h]; simp, fun res hres => ?_⟩
      rw [← h] at hres
      have hres2 : (⟨m, cf, qs, cons⟩ : ComputeResult) = res := by
        cases hres
        rfl
      rw [← hres2]
      exact ⟨P, LoopInv_empty_wl inv⟩
    | cons e rest =>
      simp only [computeLoop] at h
      split at h
      · exact ih P _ _ _ _ _ _ h (LoopInv_tail inv)
      · split at h
        · exact ih P _ _ _ _ _ _ h (LoopInv_tail inv)
        · split at h
          · rename_i hnone
            rcases inv.wl_inMap e (List.mem_cons_self e rest) with ⟨en, hen, _⟩
            simp only [entryKey] at hen
            rw [hen] at hnone
            exact absurd hnone (by simp)
          · rename_i cached hsome
            split at h
            · rename_i hpos
              rcases hpc : processChildren fi ts ersUsed e.tileKey e.offset
                  (ts.getSubTileKeys e.tileKey) ⟨m, cf, qs, cons, []⟩ with _ | st
              · rw [hpc] at h
                obtain ⟨st', hst', _⟩ :=
                  processChildren_master fi ts ersUsed roots P e.tileKey e.offset m Hdisj
                    _ _ _ hpc
                    (InnerInv_start ts maxL roots P m cf qs cons Hlevel Hdisj Hnodup
                      Hroots0 inv)
                exact absurd hst'.symm (by simp)
              · rw [hpc] at h
                obtain ⟨st', hst', innerEnd⟩ :=
                  processChildren_master fi ts ersUsed roots P e.tileKey e.offset m Hdisj
                    _ _ _ hpc
                    (InnerInv_start ts maxL roots P m cf qs cons Hlevel Hdisj Hnodup
                      Hroots0 inv)
                have hst : st = st' := by
                  cases hst'
                  rfl
                rw [hst] at h
                have hlev : e.tileKey.level ≤ maxL := by
                  rename_i hnotlt _ _
                  omega
                exact ih (P ++ [(e.tileKey, e.offset)]) _ _ _ _ _ _ h
                  (LoopInv_after ts maxL roots P m cons Hlevel inv hlev innerEnd)
            · rename_i hpos
              exfalso
              rcases inv.wl_inMap e (List.mem_cons_self e rest) with ⟨en, hen, hposa⟩
              simp only [entryKey] at hen
              rw [hen] at hsome
              have : en = cached := by
                cases hsome
                rfl
              rw [this] at hposa
              exact hpos hposa

theorem quad_level : ∀ t c, c ∈ quadSubTileKeys t → c.level = t.level + 1 := by
  intro t c hc
  simp only [quadSubTileKeys, List.mem_cons, List.not_mem_nil, or_false] at hc
  rcases hc with rfl | rfl | rfl | rfl <;> rfl

theorem quad_disj : ∀ t1 t2 c, c ∈ quadSubTileKeys t1 → c ∈ quadSubTileKeys t2 → t1 = t2 := by
  intro t1 t2 c h1 h2
  cases t1
  cases t2
  cases c
  simp only [quadSubTileKeys, List.mem_cons, List.not_mem_nil, or_false,
    TileKey.mk.injEq] at h1 h2
  simp only [TileKey.mk.injEq]
  rcases h1 with ⟨ha, hb, hc⟩ | ⟨ha, hb, hc⟩ | ⟨ha, hb, hc⟩ | ⟨ha, hb, hc⟩ <;>
    rcases h2 with ⟨hd, he, hf⟩ | ⟨hd, he, hf⟩ | ⟨hd, he, hf⟩ | ⟨hd, he, hf⟩ <;>
    omega

theorem quad_nodup : ∀ t, (quadSubTileKeys t).Nodup := by
  intro t
  simp only [quadSubTileKeys, List.nodup_cons, List.mem_cons, List.not_mem_nil, or_false,
    List.nodup_nil, and_true, TileKey.mk.injEq, not_or, true_and, not_false_eq_true]
  repeat' apply And.intro
  all_goals omega

set_option maxHeartbeats 2000000 in
/-- C1: under the quadtree contract of the tiling scheme (children sit one
level deeper, distinct tiles have disjoint children, no duplicate
children) and with well-formed root entries (level 0, pairwise distinct
tile-offset pairs), no assertion of `compute` ever fires — in particular
the composite key of a child about to be inserted is never already present
in the result map — and in every returned result the composite keys are
pairwise distinct, each mapping to exactly one entry. -/
theorem c1_no_duplicate_composite_keys (fi : FrustumIntersection) (ts : TilingScheme)
    (maxL : Nat) (ers : Option ElevationRangeSource) (zls : List ℚ) (dss : List DataSource)
    (Hlevel : ∀ t c, c ∈ ts.getSubTileKeys t → c.level = t.level + 1)
    (Hdisj : ∀ t1 t2 c, c ∈ ts.getSubTileKeys t1 → c ∈ ts.getSubTileKeys t2 → t1 = t2)
    (Hnodup : ∀ t, (ts.getSubTileKeys t).Nodup)
    (Hroots0 : ∀ r ∈ fi.rootTileKeys, r.tileKey.level = 0)
    (Hpairs : (fi.rootTileKeys.map (fun r => (r.tileKey, r.offset))).Nodup) (fuel : Nat) :
    compute fi ts maxL ers zls dss fuel ≠ .assertionFailed
    ∧ ∀ res, compute fi ts maxL ers zls dss fuel = .ok res →
        (res.tileKeyEntries.map Prod.fst).Nodup := by
  have hmaster := computeLoop_master fi ts maxL
    (if (match ers with
      | some e => e.tilingScheme.id == ts.id
      | none => false) = true then ers else none) zls dss fi.rootTileKeys Hlevel Hdisj Hnodup Hroots0 fuel []
    (fi.rootTileKeys.foldl
      (fun m item => mapSet m (getKeyForTileKeyAndOffset item.tileKey item.offset)
        ⟨item.tileKey, ⊤, item.offset, item.minElevation, item.maxElevation⟩) [])
    true [] [] fi.rootTileKeys.reverse _ rfl
    (initial_LoopInv ts maxL fi.rootTileKeys Hpairs)
  refine ⟨fun hbad => hmaster.1 hbad, fun res hres => ?_⟩
  obtain ⟨P', hP'⟩ := hmaster.2 res hres
  exact hP'.keys_nodup

/-- Witness for C1 over a concrete quadtree configuration. -/
theorem c1_no_duplicate_composite_keys_witness :
    compute exFrustumAll exTilingScheme 1 none [0] [exDataSourceYes] 20
      ≠ ComputeOutcome.assertionFailed :=
  (c1_no_duplicate_composite_keys exFrustumAll exTilingScheme 1 none [0] [exDataSourceYes]
    quad_level quad_disj quad_nodup
    (fun r hr => by rw [List.mem_singleton.mp hr])
    (by simp [exFrustumAll]) 20).1

set_option maxHeartbeats 2000000 in
/-- C6: under the same contract, a candidate child for which the area
estimator returned no positive area is absent from the returned result map
(and hence was never pushed for further subdivision, since every pushed
entry is inserted into the map at push time and keys are never removed),
and conversely every entry of the returned map that is not a root entry
has positive area. -/
theorem c6_pruned_children_absent (fi : FrustumIntersection) (ts : TilingScheme)
    (maxL : Nat) (ers : Option ElevationRangeSource) (zls : List ℚ) (dss : List DataSource)
    (Hlevel : ∀ t c, c ∈ ts.getSubTileKeys t → c.level = t.level + 1)
    (Hdisj : ∀ t1 t2 c, c ∈ ts.getSubTileKeys t1 → c ∈ ts.getSubTileKeys t2 → t1 = t2)
    (Hnodup : ∀ t, (ts.getSubTileKeys t).Nodup)
    (Hroots0 : ∀ r ∈ fi.rootTileKeys, r.tileKey.level = 0)
    (Hpairs : (fi.rootTileKeys.map (fun r => (r.tileKey, r.offset))).Nodup) (fuel : Nat) :
    ∀ res, compute fi ts maxL ers zls dss fuel = .ok res →
      res.considered.all
        (fun c => decide (0 < c.area)
          || (mapGet res.tileKeyEntries
              (getKeyForTileKeyAndOffset c.child c.offset)).isNone) = true
      ∧ res.tileKeyEntries.all
        (fun p => fi.rootTileKeys.any
            (fun r => decide (r.tileKey = p.2.tileKey) && decide (r.offset = p.2.offset))
          || decide (0 < p.2.area)) = true := by
  have hmaster := computeLoop_master fi ts maxL
    (if (match ers with
      | some e => e.tilingScheme.id == ts.id
      | none => false) = true then ers else none) zls dss fi.rootTileKeys Hlevel Hdisj Hnodup Hroots0 fuel []
    (fi.rootTileKeys.foldl
      (fun m item => mapSet m (getKeyForTileKeyAndOffset item.tileKey item.offset)
        ⟨item.tileKey, ⊤, item.offset, item.minElevation, item.maxElevation⟩) [])
    true [] [] fi.rootTileKeys.reverse _ rfl
    (initial_LoopInv ts maxL fi.rootTileKeys Hpairs)
  intro res hres
  obtain ⟨P', hP'⟩ := hmaster.2 res hres
  constructor
  · refine List.all_eq_true.mpr fun c hc => ?_
    by_cases hA : 0 < c.area
    · simp [hA]
    · rw [hP'.pruned_absent c hc hA]
      simp [hA]
  · refine List.all_eq_true.mpr fun p hp => ?_
    rcases hP'.src p hp with ⟨r, hr, hre⟩ | ⟨q, _, _, _, hpos⟩
    · refine (Bool.or_eq_true _ _).mpr (Or.inl ?_)
      refine List.any_eq_true.mpr ⟨r, hr, ?_⟩
      rw [hre]
      simp [rootEntry]
    · exact (Bool.or_eq_true _ _).mpr (Or.inr (by simpa using hpos))

/-- Witness for C6 over a concrete quadtree configuration. -/
theorem c6_pruned_children_absent_witness :
    (ComputeResult.mk [(getKeyForTileKeyAndOffset ⟨0, 0, 0⟩ 0, ⟨⟨0, 0, 0⟩, ⊤, 0, 0, 0⟩)]
        true [] []).considered.all
      (fun c => decide (0 < c.area)
        || (mapGet (ComputeResult.mk
              [(getKeyForTileKeyAndOffset ⟨0, 0, 0⟩ 0, ⟨⟨0, 0, 0⟩, ⊤, 0, 0, 0⟩)]
              true [] []).tileKeyEntries
            (getKeyForTileKeyAndOffset c.child c.offset)).isNone) = true
    ∧ (ComputeResult.mk [(getKeyForTileKeyAndOffset ⟨0, 0, 0⟩ 0, ⟨⟨0, 0, 0⟩, ⊤, 0, 0, 0⟩)]
        true [] []).tileKeyEntries.all
      (fun p => exFrustumAll.rootTileKeys.any
          (fun r => decide (r.tileKey = p.2.tileKey) && decide (r.offset = p.2.offset))
        || decide (0 < p.2.area)) = true :=
  c6_pruned_children_absent exFrustumAll exTilingScheme 0 none [0] [exDataSourceNo]
    quad_level quad_disj quad_nodup
    (fun r hr => by rw [List.mem_singleton.mp hr])
    (by simp [exFrustumAll]) 5
    (ComputeResult.mk [(getKeyForTileKeyAndOffset ⟨0, 0, 0⟩ 0, ⟨⟨0, 0, 0⟩, ⊤, 0, 0, 0⟩)]
      true [] []) (by with_unfolding_all rfl)

set_option maxHeartbeats 2000000 in
/-- C4 (amended): with a single non-wrapping root entry, data sources that
always vote to subdivide and maxTileLevel = 0, `compute` returns a map
that contains the level-0 root entry with unbounded (sentinel) area, and
in which every other entry is a level-1 child with positive area (the
level-0 root is still allowed to subdivide once, because only tiles with
level strictly greater than maxTileLevel are discarded). -/
theorem c4_max_level_zero_amended (fi : FrustumIntersection) (ts : TilingScheme)
    (ers : Option ElevationRangeSource) (zls : List ℚ) (dss : List DataSource)
    (Hlevel : ∀ t c, c ∈ ts.getSubTileKeys t → c.level = t.level + 1)
    (Hdisj : ∀ t1 t2 c, c ∈ ts.getSubTileKeys t1 → c ∈ ts.getSubTileKeys t2 → t1 = t2)
    (Hnodup : ∀ t, (ts.getSubTileKeys t).Nodup)
    (Hroots : fi.rootTileKeys = [⟨⟨0, 0, 0⟩, 0, 0, 0, 0⟩])
    (Hsub : ∀ tk, (dss.zip zls).any (fun p => p.1.shouldSubdivide p.2 tk) = true)
    (fuel : Nat) :
    compute fi ts 0 ers zls dss fuel ≠ .assertionFailed
    ∧ ∀ res, compute fi ts 0 ers zls dss fuel = .ok res →
        mapGet res.tileKeyEntries (getKeyForTileKeyAndOffset ⟨0, 0, 0⟩ 0)
          = some ⟨⟨0, 0, 0⟩, ⊤, 0, 0, 0⟩
        ∧ res.tileKeyEntries.all
            (fun p => decide (p.2 = (⟨⟨0, 0, 0⟩, ⊤, 0, 0, 0⟩ : TileKeyEntry))
              || (decide (p.2.tileKey.level = 1) && decide (0 < p.2.area))) = true := by
  have Hroots0 : ∀ r ∈ fi.rootTileKeys, r.tileKey.level = 0 := by
    rw [Hroots]
    intro r hr
    rw [List.mem_singleton.mp hr]
  have Hpairs : (fi.rootTileKeys.map (fun r => (r.tileKey, r.offset))).Nodup := by
    rw [Hroots]
    simp
  have hmaster := computeLoop_master fi ts 0
    (if (match ers with
      | some e => e.tilingScheme.id == ts.id
      | none => false) = true then ers else none) zls dss fi.rootTileKeys Hlevel Hdisj Hnodup Hroots0 fuel []
    (fi.rootTileKeys.foldl
      (fun m item => mapSet m (getKeyForTileKeyAndOffset item.tileKey item.offset)
        ⟨item.tileKey, ⊤, item.offset, item.minElevation, item.maxElevation⟩) [])
    true [] [] fi.rootTileKeys.reverse _ rfl
    (initial_LoopInv ts 0 fi.rootTileKeys Hpairs)
  refine ⟨fun hbad => hmaster.1 hbad, fun res hres => ?_⟩
  obtain ⟨P', hP'⟩ := hmaster.2 res hres
  constructor
  · have := hP'.roots_inMap ⟨⟨0, 0, 0⟩, 0, 0, 0, 0⟩ (by rw [Hroots]; exact List.mem_singleton.mpr rfl)
    simpa [entryKey, rootEntry] using this
  · refine List.all_eq_true.mpr fun p hp => ?_
    rcases hP'.src p hp with ⟨r, hr, hre⟩ | ⟨q, hq, hsub2, _, hpos⟩
    · rw [Hroots] at hr
      rw [List.mem_singleton.mp hr] at hre
      refine (Bool.or_eq_true _ _).mpr (Or.inl ?_)
      rw [hre]
      simp [rootEntry]
    · refine (Bool.or_eq_true _ _).mpr (Or.inr ?_)
      have hq0 : q.1.level = 0 := Nat.le_zero.mp (hP'.popped_level q hq)
      have hl : p.2.tileKey.level = 1 := by
        rw [Hlevel q.1 p.2.tileKey hsub2, hq0]
      simp [hl]
      exact hpos

/-- Witness for C4 (amended) over a concrete quadtree configuration. -/
theorem c4_max_level_zero_amended_witness :
    compute exFrustumAll exTilingScheme 0 none [0] [exDataSourceYes] 10
      ≠ ComputeOutcome.assertionFailed :=
  (c4_max_level_zero_amended exFrustumAll exTilingScheme none [0] [exDataSourceYes]
    quad_level quad_disj quad_nodup rfl (fun tk => rfl) 10).1

end HarpFrustum
